import Mathlib

/-!
Verification of `wish.c`: line editor, command history, output redirection,
`trimString` and the two modes of `main`.

A shallow embedding of `src/wish.c`.

* Bytes (`char`) are natural numbers; the value returned by `getchar` is an `Int`
  so that `EOF` (`-1`) is representable.
* A memory buffer (`line`, a history entry) is the list of its bytes.  A C string
  passed as an argument (`redirection`) is the list of its characters before the
  terminator.
* The process state of the interactive loop is the record `Shell`; standard input
  is the list of bytes not yet read, standard output the list of bytes written.
* An operation that dereferences a null or out-of-range pointer has no defined
  result: it returns `none`.
* A call of `redirection` or of `main` is described by the calls it makes, in
  program order, and by the way it ends.
-/

namespace Wish

/-! ## Constants -/

/-- Capacity of the history: `#define MAX_HISTORY 10`. -/
def MAX_HISTORY : Nat := 10

/-- Size of the line buffer: `#define MAX_LINE_LENGTH 256`. -/
def MAX_LINE_LENGTH : Nat := 256

/-- The global `char error_message[30] = "An error has occurred\n"`, up to its
terminator. -/
def error_message : List Nat :=
  [65, 110, 32, 101, 114, 114, 111, 114, 32, 104, 97, 115, 32,
   111, 99, 99, 117, 114, 114, 101, 100, 10]

/-- The bytes of a string literal (used to write inputs legibly). -/
def bytes (s : String) : List Nat := s.toList.map Char.toNat

/-! ## libc string functions -/

/-- C string held in a buffer: the bytes before the first NUL. -/
def cstr (buf : List Nat) : List Nat := buf.takeWhile (fun c => c != 0)

/-- The libc function `strlen(buf)`. -/
def strlen (buf : List Nat) : Nat := (cstr buf).length

/-- The `n` bytes that `strncpy(dst, src, n)` stores at `dst`: the characters of
`src` up to its terminator, at most `n` of them, then NUL padding. -/
def strncpy (src : List Nat) (n : Nat) : List Nat :=
  cstr (src.take n) ++ List.replicate (n - (cstr (src.take n)).length) 0

/-- Store `data` at the start of the buffer `dst`. -/
def store (dst data : List Nat) : List Nat := data ++ dst.drop data.length

/-- Result of `memset(line, 0, n)` on a buffer of `n` bytes. -/
def memset0 (n : Nat) : List Nat := List.replicate n 0

/-! ## Interactive state -/

/-- The variables of `main` that the interactive loop works on, with the two
standard streams. -/
structure Shell where
  /-- the buffer `char *line` of `MAX_LINE_LENGTH` bytes -/
  line : List Nat
  /-- the variable `int line_idx` -/
  line_idx : Nat
  /-- the array `char *history[MAX_HISTORY]`; `none` is the null pointer -/
  history : List (Option (List Nat))
  /-- the variable `int history_count` -/
  history_count : Int
  /-- the variable `int history_idx` -/
  history_idx : Int
  /-- bytes of standard input not yet read -/
  stdin : List Nat
  /-- bytes written to standard output -/
  stdout : List Nat
  deriving DecidableEq, Repr

/-- The libc function `getchar()`: the next byte of standard input, `EOF` (-1) when there is none. -/
def getchar (s : Shell) : Int × Shell :=
  match s.stdin with
  | [] => (-1, s)
  | c :: rest => ((c : Int), { s with stdin := rest })

/-- The libc function `putchar(c)`. -/
def putchar (s : Shell) (c : Nat) : Shell := { s with stdout := s.stdout ++ [c] }

/-- The pointer read `history[i]`: `none` when `i` is outside the array or the
slot holds the null pointer, so that the string cannot be read. -/
def history_at (h : List (Option (List Nat))) (i : Int) : Option (List Nat) :=
  if 0 ≤ i ∧ i < (MAX_HISTORY : Int) then
    match h[i.toNat]? with
    | some (some e) => some e
    | _ => none
  else none

/-- Line content as the user sees it: the first `line_idx` bytes of `line`. -/
def content (s : Shell) : List Nat := s.line.take s.line_idx

/-- The buffer `line` after `memset(line, 0, MAX_LINE_LENGTH)` and
`strncpy(line, e, MAX_LINE_LENGTH - 1)` (wish.c:55-56). -/
def load_line (e : List Nat) : List Nat :=
  store (memset0 MAX_LINE_LENGTH) (strncpy e (MAX_LINE_LENGTH - 1))

/-- Function `navigate_command_history` (wish.c:45-60), entered after ESC has been read. -/
def navigate_command_history (s : Shell) : Option Shell :=
  let s1 := (getchar s).2
  let (ch, s2) := getchar s1
  let idx : Int :=
    if ch = 65 ∧ s2.history_count > 0 ∧ s2.history_idx > 0 then
      s2.history_idx - 1
    else if ch = 66 ∧ s2.history_count > 0 ∧ s2.history_idx < s2.history_count - 1 then
      s2.history_idx + 1
    else s2.history_idx
  match history_at s2.history idx with
  | none => none
  | some e =>
    let line := load_line e
    some { s2 with
      history_idx := idx
      line := line
      line_idx := strlen line
      stdout := s2.stdout ++ [27, 91, 50, 75, 13] ++ cstr line }

/-- Function `handle_backspace_key` (wish.c:63-71). -/
def handle_backspace_key (s : Shell) : Shell :=
  if s.line_idx > 0 then
    let s1 := putchar (putchar (putchar s 8) 32) 8
    { s1 with line_idx := s1.line_idx - 1, line := s1.line.set (s1.line_idx - 1) 0 }
  else s

/-- The `memmove(history, history + 1, (MAX_HISTORY - 1) * sizeof(char *))` of
`add_command_to_history`: slots 0..8 receive slots 1..9, slot 9 keeps its value. -/
def shift_history (h : List (Option (List Nat))) : List (Option (List Nat)) :=
  (h.drop 1).take (MAX_HISTORY - 1) ++ h.drop (MAX_HISTORY - 1)

/-- Function `add_command_to_history` (wish.c:74-89).  The allocation is taken to
succeed. -/
def add_command_to_history (s : Shell) : Option Shell :=
  let s1 := putchar s 10
  if s1.line_idx > 0 then
    let s2 :=
      if s1.history_count = (MAX_HISTORY : Int) then
        { s1 with history := shift_history s1.history, history_count := s1.history_count - 1 }
      else s1
    if 0 ≤ s2.history_count ∧ s2.history_count < (MAX_HISTORY : Int) then
      let entry := strncpy s2.line s2.line_idx ++ [0]
      some { s2 with
        history := s2.history.set s2.history_count.toNat (some entry)
        history_count := s2.history_count + 1
        history_idx := s2.history_count + 1
        line_idx := 0 }
    else none
  else some { s1 with line_idx := 0 }

/-- Function `handle_input` (wish.c:92-98). -/
def handle_input (s : Shell) (ch : Nat) : Shell :=
  if s.line_idx < MAX_LINE_LENGTH - 1 then
    let s1 := putchar s ch
    { s1 with line := s1.line.set s1.line_idx ch, line_idx := s1.line_idx + 1 }
  else s

/-- One iteration of the `while (1)` loop of `main` in interactive mode
(wish.c:168-173). -/
def main_iter (s : Shell) : Option Shell :=
  let (ch, s1) := getchar s
  if ch = 27 then navigate_command_history s1
  else if ch = 10 then add_command_to_history s1
  else if ch = 127 then some (handle_backspace_key s1)
  else if 32 ≤ ch ∧ ch ≤ 126 then some (handle_input s1 ch.toNat)
  else some s1

/-- The first `n` iterations of the interactive loop. -/
def main_loop : Nat → Shell → Option Shell
  | 0, s => some s
  | n + 1, s => (main_iter s).bind (main_loop n)

/-- State of `main` on entry to the loop in interactive mode (wish.c:149-165):
`line` is freshly allocated (its 256 bytes are whatever `malloc` returns), the
history is all null pointers, the prompt has been printed. -/
def main_init (heap : List Nat) (input : List Nat) : Shell :=
  { line := heap
    line_idx := 0
    history := List.replicate MAX_HISTORY none
    history_count := 0
    history_idx := 0
    stdin := input
    stdout := [119, 105, 115, 104, 62, 32] }

/-- States the interactive loop can be in after some number of iterations. -/
def Reachable (s : Shell) : Prop :=
  ∃ (heap input : List Nat) (n : Nat),
    heap.length = MAX_LINE_LENGTH ∧ main_loop n (main_init heap input) = some s

/-! ## Redirection -/

/-- Flags given to `open`. -/
inductive OFlag
  | O_WRONLY | O_CREAT | O_TRUNC
  deriving DecidableEq, Repr

/-- System calls a function performs, in program order. -/
inductive SysCall
  | write (fd : Nat) (data : List Nat)
  | open_ (path : List Nat) (flags : List OFlag) (mode : Nat)
  | dup2 (oldfd newfd : Int)
  | close (fd : Int)
  deriving DecidableEq, Repr

/-- How a call ends. -/
inductive Ending
  /-- the function returns to its caller -/
  | returned
  /-- the process terminates through `exit(status)` -/
  | exited (status : Nat)
  /-- an indeterminate or out-of-range array slot is used -/
  | undefined
  /-- the loop bound of the model was reached -/
  | unfinished
  deriving DecidableEq, Repr

/-- Observable behaviour of a call. -/
structure Outcome where
  trace : List SysCall
  ending : Ending
  deriving DecidableEq, Repr

/-- Delimiter set `" \n\t>"` of both `strtok` calls. -/
def isDelim (c : Nat) : Bool := c == 32 || c == 10 || c == 9 || c == 62

/-- One `strtok` call on the unread rest of the string: `none` is the NULL result,
otherwise the token and the rest after the delimiter that ended it. -/
def strtok (s : List Nat) : Option (List Nat × List Nat) :=
  match s.dropWhile isDelim with
  | [] => none
  | c :: cs =>
    some ((c :: cs).takeWhile (fun x => !isDelim x),
          ((c :: cs).dropWhile (fun x => !isDelim x)).drop 1)

/-- The tokens stored in `redirections[0..a-1]` by the loop of wish.c:120-124,
run for at most `fuel` `strtok` calls (`none`: still running). -/
def redirection_tokens : Nat → List Nat → Option (List (List Nat))
  | 0, _ => none
  | fuel + 1, s =>
    match strtok s with
    | none => some []
    | some (t, rest) => (redirection_tokens fuel rest).map (fun ts => t :: ts)

/-- Function `printError` (wish.c:110-113): the message on standard error, then `exit(0)`. -/
def printError (before : List SysCall) : Outcome :=
  { trace := before ++ [SysCall.write 2 error_message], ending := Ending.exited 0 }

/-- Function `redirection` (wish.c:116-138).  `sys_open` is the answer of
the file system to `open` (a descriptor, or -1); the array `redirections` is the
list of the tokens stored. -/
def redirection (sys_open : List Nat → Int) (line : List Nat) : Outcome :=
  match redirection_tokens (line.length + 1) line with
  | none => { trace := [], ending := Ending.unfinished }
  | some toks =>
    if toks.length = 1 then printError []
    else
      match toks[1]? with
      | none => { trace := [], ending := Ending.undefined }
      | some command_out =>
        let file_out := sys_open command_out
        let opened :=
          [SysCall.open_ command_out [OFlag.O_WRONLY, OFlag.O_CREAT, OFlag.O_TRUNC] 0o666]
        if file_out = -1 then printError opened
        else
          { trace := opened ++ [SysCall.dup2 file_out 1, SysCall.close file_out]
            ending := Ending.returned }

/-! ## Notions used in the statements -/

/-- State after the characters `cs` have been appended to the line and echoed. -/
def typed (s : Shell) (cs rest : List Nat) : Shell :=
  { s with
    line := s.line.take s.line_idx ++ cs ++ s.line.drop (s.line_idx + cs.length)
    line_idx := s.line_idx + cs.length
    stdout := s.stdout ++ cs
    stdin := rest }

/-- The up-arrow escape sequence `ESC [ A`. -/
def KEY_UP : List Nat := [27, 91, 65]

/-- The down-arrow escape sequence `ESC [ B`. -/
def KEY_DOWN : List Nat := [27, 91, 66]

/-- The left-arrow escape sequence `ESC [ D`. -/
def KEY_LEFT : List Nat := [27, 91, 68]

/-- The redraw that `navigate_command_history` prints before the line:
`ESC [ 2 K` (clear line) and carriage return. -/
def REDRAW : List Nat := [27, 91, 50, 75, 13]

/-- A printable character, as the dispatcher tests it (`ch >= 32 && ch <= 126`). -/
def printable (c : Nat) : Prop := 32 ≤ c ∧ c ≤ 126

/-- Slot value for the submitted line `w`: the allocated copy with its terminator. -/
def entry_of (w : List Nat) : Option (List Nat) := some (w ++ [0])

/-- A string that `add_command_to_history` can have stored: not empty, at most
`MAX_LINE_LENGTH - 1` characters, none of them NUL. -/
def entry_text (w : List Nat) : Prop :=
  w ≠ [] ∧ w.length ≤ MAX_LINE_LENGTH - 1 ∧ ∀ c ∈ w, c ≠ 0

/-- The `history` array whose first slots hold copies of the strings `ws`, oldest
first, and whose other slots are null. -/
def ring (ws : List (List Nat)) : List (Option (List Nat)) :=
  ws.map entry_of ++ List.replicate (MAX_HISTORY - ws.length) none

/-- The last `MAX_HISTORY` elements of a list. -/
def lastN (ws : List (List Nat)) : List (List Nat) := ws.drop (ws.length - MAX_HISTORY)

/-- The strings held by the history after `w` is recorded: appended, and the
oldest one dropped when `MAX_HISTORY` were held. -/
def push_entry (ws : List (List Nat)) (w : List Nat) : List (List Nat) :=
  if ws.length = MAX_HISTORY then ws.tail ++ [w] else ws ++ [w]

/-- A word of a command line: not empty and free of the delimiters of `strtok`. -/
def word (w : List Nat) : Prop := w ≠ [] ∧ ∀ c ∈ w, isDelim c = false

/-- The bytes typed to submit the lines `ls` one after the other: each line
followed by newline. -/
def keystrokes : List (List Nat) → List Nat
  | [] => []
  | l :: ls => l ++ 10 :: keystrokes ls

/-- A line as the user can type it: not empty, at most `MAX_LINE_LENGTH - 1`
printable characters. -/
def typed_line (l : List Nat) : Prop :=
  l ≠ [] ∧ l.length ≤ MAX_LINE_LENGTH - 1 ∧ ∀ c ∈ l, printable c

/-- The bytes of `k` presses of the up arrow. -/
def ups : Nat → List Nat
  | 0 => []
  | k + 1 => KEY_UP ++ ups k

/-- Consistency of the interactive state: the buffer has its allocated size, the
line index stays inside it and the bytes before it are characters, the first
`history_count` slots of the history array hold entries and the others are null,
and the browse index lies in `[0, history_count]`. -/
structure Inv (s : Shell) : Prop where
  line_len : s.line.length = MAX_LINE_LENGTH
  idx_le : s.line_idx ≤ MAX_LINE_LENGTH - 1
  line_nz : ∀ c ∈ content s, c ≠ 0
  hist : ∃ ws : List (List Nat), s.history = ring ws ∧ s.history_count = (ws.length : Int) ∧
    ws.length ≤ MAX_HISTORY ∧ ∀ w ∈ ws, entry_text w
  idx_range : 0 ≤ s.history_idx ∧ s.history_idx ≤ s.history_count

/-! ## trimString -/

/-- The libc predicate `isspace` in the C locale: space, `\t`, `\n`, `\v`, `\f`,
`\r`. -/
def isspace (c : Nat) : Bool :=
  c == 32 || c == 9 || c == 10 || c == 11 || c == 12 || c == 13

/-- Loop `while (isspace(str[start])) start++` of `trimString` (wish.c:103), run on
the characters from `str[start]` on: the number of increments.  The end of the
list is the terminator, which `isspace` rejects. -/
def trim_start : List Nat → Nat
  | [] => 0
  | c :: cs => if isspace c then trim_start cs + 1 else 0

/-- Loop `while ((end >= start) && isspace(str[end])) end--` of `trimString`
(wish.c:104).  The argument and the result are `end + 1`, so that `end = -1` is
the natural number 0. -/
def trim_end (str : List Nat) (start : Nat) : Nat → Nat
  | 0 => 0
  | k + 1 => if start ≤ k ∧ isspace (str.getD k 0) = true then trim_end str start k else k + 1

/-- Function `trimString` (wish.c:101-107) on the characters of `str`: the string
that starts at `str[start]` and is terminated at `str[end + 1]`. -/
def trimString (str : List Nat) : List Nat :=
  let start := trim_start str
  let end1 := trim_end str start str.length
  (str.take end1).drop start

/-! ## Token list of the specification -/

/-- Splitting on runs of space, tab, newline and `>`, as the specification words
it: the pieces between delimiters, empty pieces left out. -/
def split_runs (s : List Nat) : List (List Nat) :=
  (s.splitOnP isDelim).filter (fun t => !t.isEmpty)

/-- Calls made by `main`, in program order. -/
inductive MainCall
  | write_stderr (data : List Nat)
  | fopen (opened : Bool)
  | set_terminal_raw_mode
  | printf (data : List Nat)
  | getline (line : Option (List Nat))
  | free_line
  /-- the argument tells whether `old_term` was filled by `set_terminal_raw_mode` -/
  | restore_terminal_mode (old_term_saved : Bool)
  deriving DecidableEq, Repr

/-- How `main` goes on after the calls listed. -/
inductive MainEnding
  /-- the statement `return status` of `main` -/
  | returned (status : Nat)
  /-- the call `exit(status)` -/
  | exited (status : Nat)
  /-- the loop `while (1)` runs in interactive mode, which has no `break` -/
  | interactive
  /-- the batch branch of the loop reads through the uninitialised `fp` -/
  | undefined
  /-- the loop bound of the model was reached -/
  | unfinished
  deriving DecidableEq, Repr

/-- Observable behaviour of `main`. -/
structure MainOutcome where
  calls : List MainCall
  ending : MainEnding
  deriving DecidableEq, Repr

/-- One `getline` call on the unread rest of the file: `none` at end of file,
otherwise the line read (with its newline, if any) and the rest. -/
def getline (rest : List Nat) : Option (List Nat × List Nat) :=
  match rest with
  | [] => none
  | c :: cs =>
    some ((c :: cs).takeWhile (fun x => x != 10) ++ ((c :: cs).dropWhile (fun x => x != 10)).take 1,
          ((c :: cs).dropWhile (fun x => x != 10)).drop 1)

/-- The loop of `main` in batch mode (wish.c:167-177): `getline` until it reports
end of file, for at most `fuel` calls (`none`: still running). -/
def batch_loop : Nat → List Nat → Option (List MainCall)
  | 0, _ => none
  | fuel + 1, rest =>
    match getline rest with
    | none => some [MainCall.getline none]
    | some (l, rest') => (batch_loop fuel rest').map (fun cs => MainCall.getline (some l) :: cs)

/-- Function `main` (wish.c:141-183) up to the interactive loop.  `file` is the
content of the file `argv[1]`, `none` when it cannot be opened. -/
def main (argc : Nat) (file : Option (List Nat)) : MainOutcome :=
  if argc > 2 then
    { calls := [MainCall.write_stderr error_message], ending := MainEnding.exited 1 }
  else if argc = 2 then
    match file with
    | none =>
      { calls := [MainCall.fopen false, MainCall.write_stderr error_message]
        ending := MainEnding.exited 1 }
    | some text =>
      match batch_loop (text.length + 1) text with
      | none => { calls := [MainCall.fopen true], ending := MainEnding.unfinished }
      | some reads =>
        { calls := MainCall.fopen true :: reads ++
            [MainCall.free_line, MainCall.restore_terminal_mode false]
          ending := MainEnding.returned 0 }
  else if argc = 1 then
    { calls := [MainCall.set_terminal_raw_mode, MainCall.printf [119, 105, 115, 104, 62, 32]]
      ending := MainEnding.interactive }
  else
    { calls := [MainCall.set_terminal_raw_mode, MainCall.printf [119, 105, 115, 104, 62, 32]]
      ending := MainEnding.undefined }

/-- A line of `n` one-letter words `a`, each followed by a space. -/
def many_words : Nat → List Nat
  | 0 => []
  | n + 1 => 97 :: 32 :: many_words n

/-! ## The dispatcher, one key at a time -/

theorem main_iter_printable (s : Shell) (c : Nat) (rest : List Nat)
    (hs : s.stdin = c :: rest) (hc : 32 ≤ c ∧ c ≤ 126) :
    main_iter s = some (handle_input { s with stdin := rest } c) := by
  have h1 : ¬ ((c : Int) = 27) := by omega
  have h2 : ¬ ((c : Int) = 10) := by omega
  have h3 : ¬ ((c : Int) = 127) := by omega
  have h4 : (32 : Int) ≤ (c : Int) ∧ (c : Int) ≤ 126 := by omega
  simp [main_iter, getchar, hs, h1, h2, h3, h4]

theorem main_iter_newline (s : Shell) (rest : List Nat) (hs : s.stdin = 10 :: rest) :
    main_iter s = add_command_to_history { s with stdin := rest } := by
  simp [main_iter, getchar, hs]

theorem main_iter_backspace (s : Shell) (rest : List Nat) (hs : s.stdin = 127 :: rest) :
    main_iter s = some (handle_backspace_key { s with stdin := rest }) := by
  simp [main_iter, getchar, hs]

theorem main_iter_escape (s : Shell) (rest : List Nat) (hs : s.stdin = 27 :: rest) :
    main_iter s = navigate_command_history { s with stdin := rest } := by
  simp [main_iter, getchar, hs]

theorem handle_input_typed (s : Shell) (c : Nat) (rest : List Nat)
    (hbuf : s.line.length = MAX_LINE_LENGTH) (hidx : s.line_idx < MAX_LINE_LENGTH - 1) :
    handle_input { s with stdin := rest } c = typed s [c] rest := by
  have hlt : s.line_idx < s.line.length := by rw [hbuf]; simp [MAX_LINE_LENGTH] at *; omega
  simp [handle_input, typed, putchar, hidx, List.set_eq_take_append_cons_drop, hlt]

theorem typed_typed (s : Shell) (c : Nat) (cs r1 rest : List Nat)
    (hlt : s.line_idx + (cs.length + 1) ≤ s.line.length) :
    typed (typed s [c] r1) cs rest = typed s (c :: cs) rest := by
  have hmin : min s.line_idx s.line.length = s.line_idx := Nat.min_eq_left (by omega)
  have e1 : List.take (s.line_idx + 1)
      (List.take s.line_idx s.line ++ c :: List.drop (s.line_idx + 1) s.line)
      = List.take s.line_idx s.line ++ [c] := by
    rw [List.take_append_eq_append_take]
    simp [List.length_take, hmin]
  have e2 : List.drop (s.line_idx + (cs.length + 1))
      (List.take s.line_idx s.line ++ c :: List.drop (s.line_idx + 1) s.line)
      = List.drop (s.line_idx + (cs.length + 1)) s.line := by
    rw [List.drop_append_eq_append_drop]
    have h3 : s.line_idx + (cs.length + 1) - s.line_idx = cs.length + 1 := by omega
    rw [List.drop_eq_nil_of_le (by simp), List.length_take, hmin, h3]
    simp only [List.nil_append, List.drop_succ_cons, List.drop_drop]
    congr 1; omega
  have e3 : s.line_idx + 1 + cs.length = s.line_idx + (cs.length + 1) := by omega
  simp only [typed, List.length_cons, List.length_nil, List.append_assoc, List.singleton_append,
    Nat.zero_add, e3, e1, e2]

theorem main_loop_typed (cs : List Nat) : ∀ (s : Shell) (rest : List Nat),
    s.line.length = MAX_LINE_LENGTH →
    s.line_idx + cs.length ≤ MAX_LINE_LENGTH - 1 →
    (∀ c ∈ cs, 32 ≤ c ∧ c ≤ 126) →
    s.stdin = cs ++ rest →
    main_loop cs.length s = some (typed s cs rest) := by
  induction cs with
  | nil =>
    intro s rest _ _ _ hs
    simp at hs
    simp [main_loop, typed, ← hs]
  | cons c cs ih =>
    intro s rest hbuf hlen hp hs
    simp only [List.length_cons, main_loop]
    simp only [List.length_cons] at hlen
    rw [main_iter_printable s c (cs ++ rest) (by simpa using hs) (hp c (by simp))]
    rw [handle_input_typed s c _ hbuf (by omega)]
    simp only [Option.some_bind]
    rw [ih (typed s [c] (cs ++ rest)) rest]
    · rw [typed_typed]
      simp [MAX_LINE_LENGTH] at *; omega
    · simp [typed, MAX_LINE_LENGTH] at *; omega
    · simp [typed]; omega
    · intro x hx; exact hp x (by simp [hx])
    · simp [typed]

/-! ## Buffers and C strings -/

theorem cstr_ne_zero (buf : List Nat) : ∀ c ∈ cstr buf, c ≠ 0 := by
  intro c hc
  have := List.mem_takeWhile_imp hc
  simpa using this

theorem cstr_length_le (buf : List Nat) : (cstr buf).length ≤ buf.length := by
  unfold cstr
  exact (List.takeWhile_sublist _).length_le

theorem cstr_of_ne_zero (w tail : List Nat) (hw : ∀ c ∈ w, c ≠ 0) :
    cstr (w ++ 0 :: tail) = w := by
  unfold cstr
  rw [List.takeWhile_append_of_pos (by intro a ha; simpa using hw a ha)]
  simp

theorem cstr_self_of_ne_zero (w : List Nat) (hw : ∀ c ∈ w, c ≠ 0) : cstr w = w := by
  unfold cstr
  rw [List.takeWhile_eq_self_iff]
  intro a ha; simpa using hw a ha

theorem cstr_zeros (k : Nat) (tail : List Nat) : cstr (List.replicate k 0 ++ 0 :: tail) = [] := by
  cases k <;> simp [cstr, List.replicate_succ]

theorem strncpy_length (src : List Nat) (n : Nat) : (strncpy src n).length = n := by
  have h := cstr_length_le (src.take n)
  have h2 : (src.take n).length ≤ n := by rw [List.length_take]; exact Nat.min_le_left _ _
  simp only [strncpy, List.length_append, List.length_replicate]
  omega

theorem cstr_strncpy (src : List Nat) (n : Nat) (tail : List Nat) :
    cstr (strncpy src n ++ 0 :: tail) = cstr (src.take n) := by
  unfold strncpy
  rw [List.append_assoc]
  conv => lhs; unfold cstr
  rw [List.takeWhile_append_of_pos (by intro a ha; simpa using cstr_ne_zero _ a ha)]
  have := cstr_zeros (n - (cstr (List.take n src)).length) tail
  unfold cstr at this
  rw [this]
  simp [cstr]

theorem load_line_eq (e : List Nat) :
    load_line e = strncpy e (MAX_LINE_LENGTH - 1) ++ [0] := by
  simp only [load_line, store, memset0, strncpy_length, List.drop_replicate]
  rfl

theorem load_line_length (e : List Nat) : (load_line e).length = MAX_LINE_LENGTH := by
  rw [load_line_eq]; simp [strncpy_length, MAX_LINE_LENGTH]

theorem cstr_load_line (e : List Nat) :
    cstr (load_line e) = cstr (e.take (MAX_LINE_LENGTH - 1)) := by
  rw [load_line_eq, cstr_strncpy]

theorem strlen_load_line_le (e : List Nat) : strlen (load_line e) ≤ MAX_LINE_LENGTH - 1 := by
  unfold strlen
  rw [cstr_load_line]
  have h := cstr_length_le (e.take (MAX_LINE_LENGTH - 1))
  have h2 : (e.take (MAX_LINE_LENGTH - 1)).length ≤ MAX_LINE_LENGTH - 1 := by
    rw [List.length_take]; exact Nat.min_le_left _ _
  omega

theorem cstr_take_entry (w : List Nat) (n : Nat) (hlen : w.length ≤ n)
    (hnz : ∀ c ∈ w, c ≠ 0) : cstr ((w ++ [0]).take n) = w := by
  rw [List.take_append_eq_append_take, List.take_of_length_le hlen]
  rcases Nat.eq_zero_or_pos (n - w.length) with h | h
  · rw [h]; simpa using cstr_self_of_ne_zero w hnz
  · obtain ⟨k, hk⟩ : ∃ k, n - w.length = k + 1 := ⟨n - w.length - 1, by omega⟩
    rw [hk]
    simpa using cstr_of_ne_zero w [] hnz

theorem cstr_load_entry (w : List Nat) (hw : entry_text w) : cstr (load_line (w ++ [0])) = w := by
  rw [cstr_load_line]
  exact cstr_take_entry w _ hw.2.1 hw.2.2

/-- Copying the first `n` bytes of a buffer that holds no NUL there. -/
theorem strncpy_of_ne_zero (buf : List Nat) (n : Nat) (hn : n ≤ buf.length)
    (hz : ∀ c ∈ buf.take n, c ≠ 0) : strncpy buf n = buf.take n := by
  unfold strncpy
  rw [cstr_self_of_ne_zero _ hz]
  simp [List.length_take, Nat.min_eq_left hn]

/-! ## The history array -/

theorem ring_length (ws : List (List Nat)) (h : ws.length ≤ MAX_HISTORY) :
    (ring ws).length = MAX_HISTORY := by
  simp [ring]; omega

theorem ring_getElem?_lt (ws : List (List Nat)) (i : Nat) (h : i < ws.length) :
    (ring ws)[i]? = (ws[i]?).map entry_of := by
  simp [ring, List.getElem?_append_left, h]

theorem ring_getElem?_ge (ws : List (List Nat)) (i : Nat) (h : ws.length ≤ i)
    (h10 : i < MAX_HISTORY) : (ring ws)[i]? = some none := by
  unfold ring
  rw [List.getElem?_append_right (by simpa using h)]
  simp [List.getElem?_replicate]
  omega

theorem history_at_ring_lt (ws : List (List Nat)) (i : Nat) (w : List Nat)
    (h10 : ws.length ≤ MAX_HISTORY) (hw : ws[i]? = some w) :
    history_at (ring ws) (i : Int) = some (w ++ [0]) := by
  have hi : i < ws.length := by
    rcases Nat.lt_or_ge i ws.length with h | h
    · exact h
    · rw [List.getElem?_eq_none h] at hw; cases hw
  have hlt : (i : Int) < (MAX_HISTORY : Int) := by omega
  simp [history_at, hlt, ring_getElem?_lt ws i hi, hw, entry_of]

theorem history_at_ring_ge (ws : List (List Nat)) (i : Int) (h : (ws.length : Int) ≤ i) :
    history_at (ring ws) i = none := by
  unfold history_at
  split
  · rename_i hr
    have h1 : ws.length ≤ i.toNat := by omega
    have h2 : i.toNat < MAX_HISTORY := by omega
    rw [ring_getElem?_ge ws i.toNat h1 h2]
  · rfl

theorem ring_push (ws : List (List Nat)) (w : List Nat) (h : ws.length < MAX_HISTORY) :
    (ring ws).set ws.length (entry_of w) = ring (ws ++ [w]) := by
  unfold ring
  have e : MAX_HISTORY - ws.length = (MAX_HISTORY - (ws ++ [w]).length) + 1 := by
    simp; omega
  rw [e, List.replicate_succ]
  rw [List.set_append_right _ _ (by simp)]
  simp

theorem ring_shift_push (ws : List (List Nat)) (w : List Nat) (h : ws.length = MAX_HISTORY) :
    (shift_history (ring ws)).set (MAX_HISTORY - 1) (entry_of w) = ring (ws.tail ++ [w]) := by
  unfold ring shift_history
  simp only [MAX_HISTORY] at *
  match ws, h with
  | [a0, a1, a2, a3, a4, a5, a6, a7, a8, a9], _ => simp

/-! ## Effect of each handler -/

theorem take_strlen (buf : List Nat) : buf.take (strlen buf) = cstr buf := by
  have h : cstr buf <+: buf := List.takeWhile_prefix _
  exact (List.prefix_iff_eq_take.mp h).symm

theorem take_succ_set (l : List Nat) (i c : Nat) (h : i < l.length) :
    (l.set i c).take (i + 1) = l.take i ++ [c] := by
  rw [List.set_eq_take_append_cons_drop, if_pos h, List.take_append_eq_append_take]
  simp [List.length_take, Nat.min_eq_left (Nat.le_of_lt h)]

theorem content_load_line (s : Shell) (e : List Nat) (hl : s.line = load_line e)
    (hi : s.line_idx = strlen (load_line e)) : content s = cstr (load_line e) := by
  unfold content
  rw [hl, hi, take_strlen]

theorem nav_index_cases (ch cnt idx : Int) :
    (if ch = 65 ∧ cnt > 0 ∧ idx > 0 then idx - 1
      else if ch = 66 ∧ cnt > 0 ∧ idx < cnt - 1 then idx + 1 else idx) = idx ∨
    (0 < idx ∧ (if ch = 65 ∧ cnt > 0 ∧ idx > 0 then idx - 1
      else if ch = 66 ∧ cnt > 0 ∧ idx < cnt - 1 then idx + 1 else idx) = idx - 1) ∨
    (idx < cnt - 1 ∧ (if ch = 65 ∧ cnt > 0 ∧ idx > 0 then idx - 1
      else if ch = 66 ∧ cnt > 0 ∧ idx < cnt - 1 then idx + 1 else idx) = idx + 1) := by
  by_cases h1 : ch = 65 ∧ cnt > 0 ∧ idx > 0
  · rw [if_pos h1]; exact Or.inr (Or.inl ⟨h1.2.2, rfl⟩)
  · rw [if_neg h1]
    by_cases h2 : ch = 66 ∧ cnt > 0 ∧ idx < cnt - 1
    · rw [if_pos h2]; exact Or.inr (Or.inr ⟨h2.2.2, rfl⟩)
    · rw [if_neg h2]; exact Or.inl rfl

theorem navigate_some (s s' : Shell) (h : navigate_command_history s = some s') :
    ∃ e, history_at s.history s'.history_idx = some e ∧
      s' = { s with
        stdin := s.stdin.drop 2
        history_idx := s'.history_idx
        line := load_line e
        line_idx := strlen (load_line e)
        stdout := s.stdout ++ REDRAW ++ cstr (load_line e) } ∧
      (s'.history_idx = s.history_idx ∨
        (0 < s.history_idx ∧ s'.history_idx = s.history_idx - 1) ∨
        (s.history_idx < s.history_count - 1 ∧ s'.history_idx = s.history_idx + 1)) := by
  obtain ⟨line, li, hist, cnt, idx, sin, sout⟩ := s
  rcases sin with _ | ⟨a, _ | ⟨b, rest⟩⟩ <;>
    simp only [navigate_command_history, getchar] at h <;>
    split at h <;> try cases h
  all_goals
    rename_i e he
    refine ⟨e, ?_, ?_, ?_⟩
    · simpa using he
    · simp [REDRAW]
    · simp only
      exact nav_index_cases _ cnt idx

theorem take_set_self (l : List Nat) (i c : Nat) : (l.set i c).take i = l.take i := by
  apply List.ext_getElem?
  intro k
  rw [List.getElem?_take, List.getElem?_take]
  split
  · rename_i hk
    rw [List.getElem?_set_ne (by omega)]
  · rfl

theorem push_entry_length (ws : List (List Nat)) (w : List Nat) (h : ws.length ≤ MAX_HISTORY) :
    (push_entry ws w).length = min (ws.length + 1) MAX_HISTORY := by
  unfold push_entry
  split
  · rename_i h10; simp [h10, MAX_HISTORY]
  · simp; omega

theorem push_entry_mem (ws : List (List Nat)) (w x : List Nat) (h : x ∈ push_entry ws w) :
    x ∈ ws ∨ x = w := by
  unfold push_entry at h
  split at h
  · simp at h
    rcases h with h | h
    · exact Or.inl (List.mem_of_mem_tail h)
    · exact Or.inr h
  · simpa using h

theorem add_command_to_history_empty (s : Shell) (h0 : s.line_idx = 0) :
    add_command_to_history s = some { s with stdout := s.stdout ++ [10] } := by
  cases s
  simp_all [add_command_to_history, putchar]

theorem add_command_to_history_pos (s : Shell) (ws : List (List Nat))
    (hlen : s.line_idx ≤ s.line.length) (hpos : 0 < s.line_idx)
    (hnz : ∀ c ∈ content s, c ≠ 0)
    (hh : s.history = ring ws) (hc : s.history_count = (ws.length : Int))
    (h10 : ws.length ≤ MAX_HISTORY) :
    add_command_to_history s = some { s with
      stdout := s.stdout ++ [10]
      line_idx := 0
      history := ring (push_entry ws (content s))
      history_count := ((push_entry ws (content s)).length : Int)
      history_idx := ((push_entry ws (content s)).length : Int) } := by
  have hcopy : strncpy s.line s.line_idx ++ [0] = content s ++ [0] := by
    rw [strncpy_of_ne_zero s.line s.line_idx hlen hnz]; rfl
  generalize content s = w at hcopy ⊢
  clear hnz hlen
  obtain ⟨line, li, hist, cnt, idx, sin, sout⟩ := s
  simp only at hh hc hpos hcopy
  subst hh hc
  have hl := push_entry_length ws w h10
  by_cases hfull : ws.length = MAX_HISTORY
  · have e := ring_shift_push ws w hfull
    have hp : push_entry ws w = ws.tail ++ [w] := by simp [push_entry, hfull]
    have hc10 : (ws.length : Int) = 10 := by simp [hfull, MAX_HISTORY]
    have hl : ((push_entry ws w).length : Int) = 10 := by
      rw [push_entry_length _ _ h10, hfull]; simp [MAX_HISTORY]
    simp only [add_command_to_history, putchar, hpos, hc10, MAX_HISTORY, hcopy, if_true,
      gt_iff_lt, Nat.cast_ofNat, hl]
    simp only [MAX_HISTORY] at e
    simp [entry_of] at e
    simp [e, hp]
  · have hlt : ws.length < MAX_HISTORY := by omega
    have e := ring_push ws w hlt
    have hp : push_entry ws w = ws ++ [w] := by simp [push_entry, hfull]
    simp only [MAX_HISTORY] at hlt hfull
    have hne : ¬ ((ws.length : Int) = 10) := by omega
    have hlt2 : (ws.length : Int) < 10 := by omega
    simp only [add_command_to_history, putchar, hpos, hne, MAX_HISTORY, hcopy, if_true,
      if_false, gt_iff_lt, Nat.cast_ofNat, hp]
    simp [entry_of] at e
    simp [e, hlt2]

/-! ## The invariant of the interactive loop -/

theorem Inv_congr (s s' : Shell) (h : Inv s) (h1 : s'.line = s.line)
    (h2 : s'.line_idx = s.line_idx) (h3 : s'.history = s.history)
    (h4 : s'.history_count = s.history_count) (h5 : s'.history_idx = s.history_idx) :
    Inv s' := by
  obtain ⟨a, b, c, d, e⟩ := h
  refine ⟨?_, ?_, ?_, ?_, ?_⟩
  · rw [h1]; exact a
  · rw [h2]; exact b
  · unfold content at *; rw [h1, h2]; exact c
  · rw [h3, h4]; exact d
  · rw [h4, h5]; exact e

theorem Inv_main_init (heap input : List Nat) (h : heap.length = MAX_LINE_LENGTH) :
    Inv (main_init heap input) := by
  refine ⟨h, by simp [main_init], by simp [main_init, content], ⟨[], ?_⟩, by simp [main_init]⟩
  simp [main_init, ring]

theorem Inv_handle_input (s : Shell) (c : Nat) (hc : c ≠ 0) (h : Inv s) :
    Inv (handle_input s c) := by
  unfold handle_input
  split
  · rename_i hlt
    obtain ⟨a, b, cz, d, e⟩ := h
    have hlt2 : s.line_idx < s.line.length := by rw [a]; omega
    refine ⟨?_, ?_, ?_, d, e⟩
    · simpa [putchar] using a
    · simp only [putchar]; omega
    · intro x hx
      simp only [content, putchar] at hx
      rw [take_succ_set _ _ _ hlt2] at hx
      rcases List.mem_append.mp hx with hx | hx
      · exact cz x hx
      · simp at hx; rw [hx]; exact hc
  · exact h

theorem Inv_handle_backspace_key (s : Shell) (h : Inv s) : Inv (handle_backspace_key s) := by
  unfold handle_backspace_key
  split
  · obtain ⟨a, b, cz, d, e⟩ := h
    refine ⟨?_, ?_, ?_, d, e⟩
    · simpa [putchar] using a
    · simp only [putchar]; omega
    · intro x hx
      simp only [content, putchar] at hx
      rw [take_set_self] at hx
      exact cz x (List.mem_of_mem_take (by
        have : (List.take (s.line_idx - 1) s.line) = List.take (s.line_idx - 1) (List.take s.line_idx s.line) := by
          rw [List.take_take, Nat.min_eq_left (by omega)]
        rw [this] at hx
        exact hx))
  · exact h

theorem Inv_add_command_to_history (s s' : Shell) (h : Inv s)
    (hs : add_command_to_history s = some s') : Inv s' := by
  rcases Nat.eq_zero_or_pos s.line_idx with h0 | hpos
  · rw [add_command_to_history_empty s h0] at hs
    cases hs
    exact Inv_congr s _ h rfl rfl rfl rfl rfl
  · obtain ⟨a, b, cz, ⟨ws, hh, hc, h10, hall⟩, e⟩ := h
    have hle : s.line_idx ≤ s.line.length := by
      rw [a]; exact Nat.le_trans b (Nat.sub_le _ _)
    rw [add_command_to_history_pos s ws hle hpos cz hh hc h10] at hs
    cases hs
    refine ⟨a, by simp, by simp [content], ⟨push_entry ws (content s), rfl, rfl, ?_, ?_⟩, ?_⟩
    · rw [push_entry_length _ _ h10]; exact Nat.min_le_right _ _
    · intro w hw
      rcases push_entry_mem _ _ _ hw with hw | hw
      · exact hall w hw
      · rw [hw]
        have hcl : (content s).length = s.line_idx := by
          simp only [content, List.length_take]; exact Nat.min_eq_left hle
        refine ⟨?_, ?_, cz⟩
        · intro hnil
          rw [hnil] at hcl
          simp only [List.length_nil] at hcl
          omega
        · rw [hcl]; exact b
    · simp

theorem Inv_navigate_command_history (s s' : Shell) (h : Inv s)
    (hs : navigate_command_history s = some s') : Inv s' := by
  obtain ⟨e, _, heq, hidx⟩ := navigate_some s s' hs
  obtain ⟨a, b, cz, d, r⟩ := h
  have hl : s'.line = load_line e := by rw [heq]
  have hi : s'.line_idx = strlen (load_line e) := by rw [heq]
  have hh : s'.history = s.history := by rw [heq]
  have hc : s'.history_count = s.history_count := by rw [heq]
  refine ⟨?_, ?_, ?_, ?_, ?_⟩
  · rw [hl]; exact load_line_length e
  · rw [hi]; exact strlen_load_line_le e
  · rw [content_load_line s' e hl hi]; exact cstr_ne_zero _
  · rw [hh, hc]; exact d
  · rw [hc]; omega

theorem Inv_main_iter (s s' : Shell) (h : Inv s) (hs : main_iter s = some s') : Inv s' := by
  unfold main_iter at hs
  have h1 : Inv (getchar s).2 := by
    unfold getchar
    split
    · exact h
    · exact Inv_congr s _ h rfl rfl rfl rfl rfl
  generalize getchar s = p at hs h1
  obtain ⟨ch, s1⟩ := p
  simp only at hs h1
  split at hs
  · exact Inv_navigate_command_history s1 s' h1 hs
  · split at hs
    · exact Inv_add_command_to_history s1 s' h1 hs
    · split at hs
      · cases hs; exact Inv_handle_backspace_key s1 h1
      · split at hs
        · rename_i hp
          cases hs
          exact Inv_handle_input s1 _ (by omega) h1
        · cases hs; exact h1

theorem Inv_main_loop (n : Nat) : ∀ (s s' : Shell), Inv s → main_loop n s = some s' → Inv s' := by
  induction n with
  | zero => intro s s' h hs; simp [main_loop] at hs; rw [← hs]; exact h
  | succ n ih =>
    intro s s' h hs
    simp only [main_loop] at hs
    cases hm : main_iter s with
    | none => rw [hm] at hs; simp at hs
    | some s1 =>
      rw [hm] at hs
      exact ih s1 s' (Inv_main_iter s s1 h hm) (by simpa using hs)

theorem Inv_of_Reachable (s : Shell) (h : Reachable s) : Inv s := by
  obtain ⟨heap, input, n, hh, hs⟩ := h
  exact Inv_main_loop n _ s (Inv_main_init heap input hh) hs

/-! ## The tokenizer of `redirection` -/

theorem strtok_rest_length (s t rest : List Nat) (h : strtok s = some (t, rest)) :
    rest.length < s.length := by
  unfold strtok at h
  split at h
  · cases h
  · rename_i c cs hcs
    have hsuf : (c :: cs).length ≤ s.length := by
      rw [← hcs]; exact (List.dropWhile_suffix _).length_le
    have hc : isDelim c = false := by
      have := List.head_dropWhile_not isDelim s (by rw [hcs]; simp)
      simpa [hcs] using this
    simp only [Option.some.injEq, Prod.mk.injEq] at h
    obtain ⟨_, hr⟩ := h
    have h4 : ((c :: cs).dropWhile (fun x => !isDelim x)).length ≤ cs.length := by
      rw [List.dropWhile_cons]
      simp only [hc, Bool.not_false, if_true]
      exact (List.dropWhile_suffix _).length_le
    have h5 : rest.length ≤ cs.length := by
      rw [← hr, List.length_drop]; omega
    simp only [List.length_cons] at hsuf
    omega

/-- The tokenizing loop ends: a bound of one call more than the line has
characters is never reached. -/
theorem redirection_tokens_total (fuel : Nat) : ∀ s : List Nat, s.length < fuel →
    ∃ toks, redirection_tokens fuel s = some toks := by
  induction fuel with
  | zero => intro s h; omega
  | succ n ih =>
    intro s h
    unfold redirection_tokens
    cases hs : strtok s with
    | none => exact ⟨[], rfl⟩
    | some p =>
      obtain ⟨t, rest⟩ := p
      have hlt := strtok_rest_length s t rest hs
      obtain ⟨toks, ht⟩ := ih rest (by omega)
      exact ⟨t :: toks, by simp [ht]⟩

theorem main_loop_add (m n : Nat) : ∀ s : Shell,
    main_loop (m + n) s = (main_loop m s).bind (main_loop n) := by
  induction m with
  | zero => intro s; simp [main_loop]
  | succ m ih =>
    intro s
    rw [Nat.succ_add]
    simp only [main_loop]
    cases main_iter s with
    | none => rfl
    | some s1 => simp [ih s1]

theorem content_typed (s : Shell) (cs rest : List Nat) (h0 : s.line_idx = 0) :
    content (typed s cs rest) = cs := by
  simp [content, typed, h0]

theorem typed_line_entry_text (l : List Nat) (h : typed_line l) : entry_text l := by
  refine ⟨h.1, h.2.1, ?_⟩
  intro c hc
  have := h.2.2 c hc
  unfold printable at this
  omega

/-- Typing a line into the empty buffer and pressing newline records it. -/
theorem submit_line (s : Shell) (ws : List (List Nat)) (l rest : List Nat)
    (hbuf : s.line.length = MAX_LINE_LENGTH) (h0 : s.line_idx = 0)
    (hh : s.history = ring ws) (hc : s.history_count = (ws.length : Int))
    (h10 : ws.length ≤ MAX_HISTORY) (hl : typed_line l) (hin : s.stdin = l ++ 10 :: rest) :
    main_loop (l.length + 1) s = some { s with
      line := (typed s l rest).line
      line_idx := 0
      history := ring (push_entry ws l)
      history_count := ((push_entry ws l).length : Int)
      history_idx := ((push_entry ws l).length : Int)
      stdin := rest
      stdout := s.stdout ++ l ++ [10] } := by
  obtain ⟨hne, hlen, hp⟩ := hl
  rw [main_loop_add, main_loop_typed l s (10 :: rest) hbuf (by rw [h0]; omega) hp hin]
  simp only [Option.some_bind, main_loop]
  rw [main_iter_newline _ rest (by simp [typed])]
  have hct : content { typed s l (10 :: rest) with stdin := rest } = l := by
    simp [content, typed, h0]
  have hpos : 0 < ({ typed s l (10 :: rest) with stdin := rest } : Shell).line_idx := by
    simp only [typed, h0]
    have := List.length_pos.mpr hne
    omega
  have hle : ({ typed s l (10 :: rest) with stdin := rest } : Shell).line_idx
      ≤ ({ typed s l (10 :: rest) with stdin := rest } : Shell).line.length := by
    simp only [typed, h0, List.take_zero, List.nil_append, List.length_append,
      List.length_drop, hbuf]
    simp only [MAX_LINE_LENGTH] at hlen ⊢
    omega
  have hnz : ∀ c ∈ content { typed s l (10 :: rest) with stdin := rest }, c ≠ 0 := by
    rw [hct]
    intro c hc0
    have := hp c hc0
    unfold printable at this
    omega
  rw [add_command_to_history_pos _ ws hle hpos hnz (by simpa [typed] using hh)
    (by simpa [typed] using hc) h10, hct]
  simp [typed]

theorem submit_lines (lines : List (List Nat)) : ∀ (s : Shell) (ws : List (List Nat))
    (rest : List Nat),
    s.line.length = MAX_LINE_LENGTH → s.line_idx = 0 →
    s.history = ring ws → s.history_count = (ws.length : Int) → ws.length ≤ MAX_HISTORY →
    (∀ l ∈ lines, typed_line l) → s.stdin = keystrokes lines ++ rest →
    ∃ s', main_loop (keystrokes lines).length s = some s' ∧
      s'.line.length = MAX_LINE_LENGTH ∧ s'.line_idx = 0 ∧
      s'.history = ring (lines.foldl push_entry ws) ∧
      s'.history_count = ((lines.foldl push_entry ws).length : Int) ∧
      (lines.foldl push_entry ws).length ≤ MAX_HISTORY ∧
      (lines ≠ [] → s'.history_idx = s'.history_count) ∧
      s'.stdin = rest := by
  induction lines with
  | nil =>
    intro s ws rest hbuf h0 hh hc h10 _ hin
    exact ⟨s, rfl, hbuf, h0, hh, hc, h10, fun h => absurd rfl h, by simpa [keystrokes] using hin⟩
  | cons l ls ih =>
    intro s ws rest hbuf h0 hh hc h10 hall hin
    have hl := hall l (by simp)
    have e : (keystrokes (l :: ls)).length = (l.length + 1) + (keystrokes ls).length := by
      simp [keystrokes]; omega
    rw [e, main_loop_add,
      submit_line s ws l (keystrokes ls ++ rest) hbuf h0 hh hc h10 hl
        (by simpa [keystrokes] using hin)]
    simp only [Option.some_bind]
    have h10' : (push_entry ws l).length ≤ MAX_HISTORY := by
      rw [push_entry_length _ _ h10]; exact Nat.min_le_right _ _
    obtain ⟨s', hs', a, b, c, d, e', f, g⟩ := ih
      { s with
        line := (typed s l (keystrokes ls ++ rest)).line
        line_idx := 0
        history := ring (push_entry ws l)
        history_count := ((push_entry ws l).length : Int)
        history_idx := ((push_entry ws l).length : Int)
        stdin := keystrokes ls ++ rest
        stdout := s.stdout ++ l ++ [10] }
      (push_entry ws l) rest
      (by have := hl.2.1
          simp only [MAX_LINE_LENGTH] at this hbuf ⊢
          simp only [typed, h0, List.take_zero, List.nil_append, List.length_append,
            List.length_drop, hbuf]
          omega)
      rfl rfl rfl h10' (fun x hx => hall x (by simp [hx])) rfl
    refine ⟨s', hs', a, b, c, d, e', ?_, g⟩
    intro _
    cases ls with
    | nil =>
      simp only [keystrokes, List.length_nil, main_loop, Option.some.injEq] at hs'
      rw [← hs']
    | cons l2 ls2 => exact f (by simp)

theorem push_entry_eq_lastN (ws : List (List Nat)) (l : List Nat) (h : ws.length ≤ MAX_HISTORY) :
    push_entry ws l = lastN (ws ++ [l]) := by
  unfold push_entry lastN
  split
  · rename_i h10
    simp only [List.length_append, List.length_singleton, h10, Nat.add_sub_cancel_left]
    rw [List.drop_append_of_le_length (by rw [h10]; decide)]
    simp
  · have : (ws ++ [l]).length - MAX_HISTORY = 0 := by
      simp only [List.length_append, List.length_singleton]; omega
    rw [this]; rfl

theorem lastN_lastN_append (xs ys : List (List Nat)) :
    lastN (lastN xs ++ ys) = lastN (xs ++ ys) := by
  unfold lastN
  rcases Nat.lt_or_ge MAX_HISTORY xs.length with h | h
  · have h1 : (List.drop (xs.length - MAX_HISTORY) xs).length = MAX_HISTORY := by
      rw [List.length_drop]; omega
    rw [List.length_append, h1, List.length_append]
    rw [List.drop_append_eq_append_drop, @List.drop_append_eq_append_drop _ xs]
    rw [List.drop_drop, h1]
    have e1 : MAX_HISTORY + ys.length - MAX_HISTORY = ys.length := by omega
    have e2 : xs.length - MAX_HISTORY + ys.length = xs.length + ys.length - MAX_HISTORY := by
      omega
    have e3 : xs.length + ys.length - MAX_HISTORY - xs.length = ys.length - MAX_HISTORY := by
      omega
    rw [e1, e2, e3]
  · have h0 : xs.length - MAX_HISTORY = 0 := by omega
    rw [h0]; rfl

theorem foldl_push_entry (lines : List (List Nat)) : ∀ ws : List (List Nat),
    ws.length ≤ MAX_HISTORY → lines.foldl push_entry ws = lastN (ws ++ lines) := by
  induction lines with
  | nil =>
    intro ws h
    simp only [List.foldl_nil, List.append_nil, lastN]
    have : ws.length - MAX_HISTORY = 0 := by omega
    rw [this]; rfl
  | cons l ls ih =>
    intro ws h
    have h' : (push_entry ws l).length ≤ MAX_HISTORY := by
      rw [push_entry_length _ _ h]; exact Nat.min_le_right _ _
    rw [List.foldl_cons, ih _ h', push_entry_eq_lastN ws l h, lastN_lastN_append]
    simp

/-! ## Recalling history entries -/

theorem content_load_entry (s : Shell) (w : List Nat) (hw : entry_text w)
    (hl : s.line = load_line (w ++ [0])) (hi : s.line_idx = w.length) : content s = w := by
  have h := cstr_load_entry w hw
  unfold content
  rw [hl, hi]
  have h2 := take_strlen (load_line (w ++ [0]))
  unfold strlen at h2
  rw [h] at h2
  exact h2

/-- One press of the up arrow in a state whose history holds the strings `ws`
and whose browse index is `i ≤ |ws|`. -/
theorem up_once (s : Shell) (ws : List (List Nat)) (rest : List Nat) (i : Nat)
    (hh : s.history = ring ws) (hc : s.history_count = (ws.length : Int))
    (h10 : ws.length ≤ MAX_HISTORY) (hall : ∀ w ∈ ws, entry_text w) (hpos : 0 < ws.length)
    (hidx : s.history_idx = (i : Int)) (hi : i ≤ ws.length) (hin : s.stdin = KEY_UP ++ rest) :
    ∃ w, ws[i - 1]? = some w ∧
      main_iter s = some { s with
        stdin := rest
        history_idx := ((i - 1 : Nat) : Int)
        line := load_line (w ++ [0])
        line_idx := w.length
        stdout := s.stdout ++ REDRAW ++ w } := by
  have hlt : i - 1 < ws.length := by omega
  obtain ⟨w, hw⟩ : ∃ w, ws[i - 1]? = some w := ⟨ws[i - 1], List.getElem?_eq_getElem hlt⟩
  have hwt : entry_text w := hall w (List.getElem?_mem hw)
  refine ⟨w, hw, ?_⟩
  rw [main_iter_escape s (91 :: 65 :: rest) (by simpa [KEY_UP] using hin)]
  have hat := history_at_ring_lt ws (i - 1) w h10 hw
  have hlen : strlen (load_line (w ++ [0])) = w.length := by
    unfold strlen; rw [cstr_load_entry w hwt]
  have h66 : ¬ ((65 : Int) = 66) := by decide
  have hnew : (if (ws.length : Int) > 0 ∧ (i : Int) > 0 then (i : Int) - 1 else (i : Int))
      = ((i - 1 : Nat) : Int) := by
    split <;> omega
  simp only [navigate_command_history, getchar, Nat.cast_ofNat, true_and, h66, false_and,
    if_false, hc, hidx, hnew, hh, hat, hlen, cstr_load_entry w hwt, REDRAW]

theorem ups_many (ws : List (List Nat)) (rest : List Nat)
    (h10 : ws.length ≤ MAX_HISTORY) (hall : ∀ w ∈ ws, entry_text w) (hpos : 0 < ws.length)
    (k : Nat) : ∀ (s : Shell) (i : Nat),
    s.history = ring ws → s.history_count = (ws.length : Int) →
    s.history_idx = (i : Int) → i ≤ ws.length → s.stdin = ups (k + 1) ++ rest →
    ∃ s' w, main_loop (k + 1) s = some s' ∧ ws[i - (k + 1)]? = some w ∧
      s'.history_idx = ((i - (k + 1) : Nat) : Int) ∧ content s' = w ∧
      s'.line_idx = w.length ∧ s'.history = ring ws ∧
      s'.history_count = (ws.length : Int) ∧ s'.stdin = rest := by
  induction k with
  | zero =>
    intro s i hh hc hidx hi hin
    obtain ⟨w, hw, hm⟩ := up_once s ws rest i hh hc h10 hall hpos hidx hi
      (by simpa [ups] using hin)
    have hwt : entry_text w := hall w (List.getElem?_mem hw)
    refine ⟨{ s with
        stdin := rest
        history_idx := ((i - 1 : Nat) : Int)
        line := load_line (w ++ [0])
        line_idx := w.length
        stdout := s.stdout ++ REDRAW ++ w }, w, ?_, hw, rfl, ?_, rfl, hh, hc, rfl⟩
    · simp only [main_loop, hm, Option.some_bind]
    · exact content_load_entry _ w hwt rfl rfl
  | succ k ih =>
    intro s i hh hc hidx hi hin
    obtain ⟨w1, _, hm⟩ := up_once s ws (ups (k + 1) ++ rest) i hh hc h10 hall hpos hidx hi
      (by rw [hin]; simp [ups])
    obtain ⟨s', w, hs', hw, a, b, c, d, e, f⟩ := ih
      { s with
        stdin := ups (k + 1) ++ rest
        history_idx := ((i - 1 : Nat) : Int)
        line := load_line (w1 ++ [0])
        line_idx := w1.length
        stdout := s.stdout ++ REDRAW ++ w1 }
      (i - 1) hh hc rfl (by omega) rfl
    have e1 : i - 1 - (k + 1) = i - (k + 1 + 1) := by omega
    rw [e1] at hw a
    refine ⟨s', w, ?_, hw, a, b, c, d, e, f⟩
    rw [main_loop, hm]
    exact hs'

theorem push_entry_last (ws : List (List Nat)) (l : List Nat) :
    (push_entry ws l)[(push_entry ws l).length - 1]? = some l := by
  unfold push_entry
  split <;> simp

/-! ## Claims on the line buffer and the history -/

/-- C1: starting from an empty history and an empty line, after the non-empty
lines `L1 .. Ln` (printable characters, at most 255 each) are typed and submitted
with newline, the history array holds copies of exactly the last `min n 10`
lines, in submission order, and `history_count` is `min n 10`; for `n ≤ 10`
these are all the lines and for `n = 11` they are `L2 .. L11`. -/
theorem history_holds_last_lines (s : Shell) (lines : List (List Nat)) (rest : List Nat)
    (hbuf : s.line.length = MAX_LINE_LENGTH) (h0 : s.line_idx = 0)
    (hempty : s.history = List.replicate MAX_HISTORY none) (hcount : s.history_count = 0)
    (hlines : ∀ l ∈ lines, typed_line l) (hin : s.stdin = keystrokes lines ++ rest) :
    ∃ s', main_loop (keystrokes lines).length s = some s' ∧
      s'.history = ring (lastN lines) ∧
      s'.history_count = ((min lines.length MAX_HISTORY : Nat) : Int) ∧
      (lastN lines).length = min lines.length MAX_HISTORY ∧
      (lines.length ≤ MAX_HISTORY → s'.history = ring lines) ∧
      (lines.length = MAX_HISTORY + 1 → s'.history = ring lines.tail) := by
  obtain ⟨s', hs, _, _, hh, hc, _, _, _⟩ :=
    submit_lines lines s [] rest hbuf h0 (by rw [hempty]; simp [ring]) (by simpa using hcount)
      (by simp) hlines hin
  rw [foldl_push_entry lines [] (by simp)] at hh hc
  simp only [List.nil_append] at hh hc
  have hlen : (lastN lines).length = min lines.length MAX_HISTORY := by
    simp only [lastN, List.length_drop]; omega
  refine ⟨s', hs, hh, by rw [hc, hlen], hlen, ?_, ?_⟩
  · intro hle
    have : lines.length - MAX_HISTORY = 0 := by omega
    rw [hh, lastN, this]; rfl
  · intro h11
    have : lines.length - MAX_HISTORY = 1 := by omega
    rw [hh, lastN, this]
    cases lines <;> rfl

/-- Witness for C1: eleven one-character lines `a` .. `k` typed at the prompt; the
history then holds `b` .. `k`. -/
theorem history_holds_last_lines_witness :
    ∃ s, main_loop 22 (main_init (List.replicate 256 0) (bytes "a\nb\nc\nd\ne\nf\ng\nh\ni\nj\nk\n"))
        = some s ∧
      s.history = ring [[98], [99], [100], [101], [102], [103], [104], [105], [106], [107]] ∧
      s.history_count = 10 := by
  obtain ⟨s, hs, hh, hc, _, _, _⟩ :=
    history_holds_last_lines
      (main_init (List.replicate 256 0) (bytes "a\nb\nc\nd\ne\nf\ng\nh\ni\nj\nk\n"))
      [[97], [98], [99], [100], [101], [102], [103], [104], [105], [106], [107]] []
      (List.length_replicate 256 0) rfl rfl rfl
      (by unfold typed_line printable MAX_LINE_LENGTH; decide) (by decide)
  exact ⟨s, hs, hh, hc⟩

/-- C4 (counterexample): a line made of one space, submitted from the initial
state, creates a history entry and moves `history_idx` from 0 to 1. -/
theorem whitespace_line_is_recorded :
    (main_loop 1 (main_init (List.replicate 256 0) [32, 10])).map
        (fun s => (content s, s.history_count, s.history_idx)) = some ([32], 0, 0) ∧
    (main_loop 2 (main_init (List.replicate 256 0) [32, 10])).map
        (fun s => (s.history, s.history_count, s.history_idx)) = some (ring [[32]], 1, 1) := by
  decide

/-- C4 (amended): in every state whose line buffer is empty (`line_idx = 0`),
pressing newline only echoes the newline: history, `history_count`,
`history_idx`, the buffer and its length are unchanged. -/
theorem newline_on_empty_line (s : Shell) (rest : List Nat)
    (h0 : s.line_idx = 0) (hin : s.stdin = 10 :: rest) :
    main_iter s = some { s with stdin := rest, stdout := s.stdout ++ [10] } := by
  rw [main_iter_newline s rest hin, add_command_to_history_empty _ (by simpa using h0)]

/-- Witness for C4 (amended): newline pressed after the line `a` was submitted. -/
theorem newline_on_empty_line_witness :
    main_iter { line := [97, 0], line_idx := 0, history := ring [[97]], history_count := 1,
                history_idx := 1, stdin := [10], stdout := [] }
      = some { line := [97, 0], line_idx := 0, history := ring [[97]], history_count := 1,
               history_idx := 1, stdin := [], stdout := [10] } :=
  newline_on_empty_line _ [] rfl rfl

/-- C6: from an empty line buffer, printable characters `cs` (at most 255)
dispatched one at a time reach `handle_input` one by one; afterwards the line
content is exactly `cs`, its length is `|cs|`, and standard output has received
exactly `cs`, in order. -/
theorem printable_sequence_fills_line (s : Shell) (cs rest : List Nat)
    (hbuf : s.line.length = MAX_LINE_LENGTH) (h0 : s.line_idx = 0)
    (hlen : cs.length ≤ MAX_LINE_LENGTH - 1) (hp : ∀ c ∈ cs, printable c)
    (hin : s.stdin = cs ++ rest) :
    ∃ s', main_loop cs.length s = some s' ∧
      content s' = cs ∧ s'.line_idx = cs.length ∧ s'.stdout = s.stdout ++ cs ∧
      s'.stdin = rest ∧ s'.history = s.history ∧ s'.history_count = s.history_count ∧
      s'.history_idx = s.history_idx := by
  refine ⟨typed s cs rest, main_loop_typed cs s rest hbuf (by rw [h0]; omega) hp hin,
    content_typed s cs rest h0, by simp [typed, h0], rfl, rfl, rfl, rfl, rfl⟩

/-- Witness for C6: typing `ls -l` after the prompt. -/
theorem printable_sequence_fills_line_witness :
    ∃ s', main_loop 5 (main_init (List.replicate 256 0) (bytes "ls -l")) = some s' ∧
      content s' = bytes "ls -l" ∧ s'.line_idx = 5 ∧
      s'.stdout = bytes "wish> " ++ bytes "ls -l" := by
  obtain ⟨s', h1, h2, h3, h4, _⟩ :=
    printable_sequence_fills_line (main_init (List.replicate 256 0) (bytes "ls -l"))
      (bytes "ls -l") [] (List.length_replicate 256 0) rfl (by decide)
      (by unfold printable; decide) (by decide)
  exact ⟨s', h1, h2, h3, h4⟩

/-- C5: in a reachable state with a non-empty line `L`, newline records `L` and
puts `history_idx` at `history_count`; `k ≥ 1` presses of the up arrow then all
succeed, leave `history_idx = max (history_count - k) 0 ≥ 0` and the line equal
to the entry at that index: `L` itself for `k = 1`, and the oldest entry (slot 0)
as soon as `k ≥ history_count`. -/
theorem up_recalls_submitted_line (s : Shell) (k : Nat) (rest : List Nat)
    (hr : Reachable s) (hpos : 0 < s.line_idx) (hk : 1 ≤ k)
    (hin : s.stdin = 10 :: (ups k ++ rest)) :
    ∃ s1 s', main_iter s = some s1 ∧ s1.history_idx = s1.history_count ∧
      main_loop k s1 = some s' ∧
      0 ≤ s'.history_idx ∧ s'.history_idx = max (s1.history_count - (k : Int)) 0 ∧
      s'.history = s1.history ∧ s'.history_count = s1.history_count ∧
      history_at s1.history s'.history_idx = some (content s' ++ [0]) ∧
      s'.line_idx = (content s').length ∧
      (k = 1 → content s' = content s ∧ s'.line_idx = s.line_idx) ∧
      (s1.history_count ≤ (k : Int) →
        s'.history_idx = 0 ∧ history_at s1.history 0 = some (content s' ++ [0])) := by
  obtain ⟨a, b, cz, ⟨ws, hh, hc, h10, hall⟩, _⟩ := Inv_of_Reachable s hr
  have hle : s.line_idx ≤ s.line.length := by
    rw [a]; exact Nat.le_trans b (Nat.sub_le _ _)
  have hcl : (content s).length = s.line_idx := by
    simp only [content, List.length_take]; exact Nat.min_eq_left hle
  have hL : entry_text (content s) := by
    refine ⟨?_, by rw [hcl]; exact b, cz⟩
    intro hnil
    rw [hnil] at hcl
    simp only [List.length_nil] at hcl
    omega
  have h1 := add_command_to_history_pos { s with stdin := ups k ++ rest } ws hle hpos cz hh hc h10
  rw [← main_iter_newline s (ups k ++ rest) hin] at h1
  have hcs : content { s with stdin := ups k ++ rest } = content s := rfl
  rw [hcs] at h1
  have h10' : (push_entry ws (content s)).length ≤ MAX_HISTORY := by
    rw [push_entry_length _ _ h10]; exact Nat.min_le_right _ _
  have hpos' : 0 < (push_entry ws (content s)).length := by
    rw [push_entry_length _ _ h10]; simp only [MAX_HISTORY]; omega
  have hall' : ∀ w ∈ push_entry ws (content s), entry_text w := by
    intro w hw
    rcases push_entry_mem _ _ _ hw with hw | hw
    · exact hall w hw
    · rw [hw]; exact hL
  obtain ⟨j, rfl⟩ : ∃ j, k = j + 1 := ⟨k - 1, by omega⟩
  obtain ⟨s', w, hs', hw, e1, e2, e3, e4, e5, _⟩ :=
    ups_many (push_entry ws (content s)) rest h10' hall' hpos' j
      { s with
        stdin := ups (j + 1) ++ rest
        stdout := s.stdout ++ [10]
        line_idx := 0
        history := ring (push_entry ws (content s))
        history_count := ((push_entry ws (content s)).length : Int)
        history_idx := ((push_entry ws (content s)).length : Int) }
      (push_entry ws (content s)).length rfl rfl rfl (Nat.le_refl _) rfl
  have hat := history_at_ring_lt (push_entry ws (content s)) _ w h10' hw
  rw [← e1, ← e2] at hat
  refine ⟨_, s', h1, rfl, hs', by rw [e1]; omega, by rw [e1]; simp only; omega, e4, e5, hat,
    by rw [e3, e2], ?_, ?_⟩
  · intro hj
    have hj0 : j = 0 := by omega
    subst hj0
    have := push_entry_last ws (content s)
    simp only [Nat.zero_add] at hw
    rw [this] at hw
    have hwL : w = content s := (Option.some.inj hw).symm
    rw [e2, hwL]
    exact ⟨rfl, by rw [e3, hwL, hcl]⟩
  · intro hcnt
    simp only at hcnt
    have h0 : s'.history_idx = 0 := by rw [e1]; omega
    rw [h0] at hat
    exact ⟨h0, hat⟩

/-- Witness for C5: `ls` typed, then newline and two presses of the up arrow. -/
theorem up_recalls_submitted_line_witness :
    ∃ s1 s', main_iter (typed (main_init (List.replicate 256 0) []) (bytes "ls")
          (10 :: (ups 2 ++ []))) = some s1 ∧
      main_loop 2 s1 = some s' ∧ s'.history_idx = 0 ∧
      history_at s1.history 0 = some (content s' ++ [0]) := by
  obtain ⟨s1, s', h1, _, h2, _, _, _, _, _, _, _, h3⟩ :=
    up_recalls_submitted_line
      (typed (main_init (List.replicate 256 0) []) (bytes "ls") (10 :: (ups 2 ++ []))) 2 []
      ⟨List.replicate 256 0, bytes "ls" ++ 10 :: (ups 2 ++ []), 2, List.length_replicate 256 0,
        main_loop_typed (bytes "ls") _ _ (List.length_replicate 256 0) (by decide)
          (by decide) rfl⟩
      (by decide) (by decide) rfl
  have hc : s1.history_count ≤ ((2 : Nat) : Int) := by
    rw [main_iter_newline _ (ups 2 ++ []) rfl] at h1
    have : s1 = _ := (Option.some.inj h1).symm
    rw [this]
    decide
  exact ⟨s1, s', h1, h2, (h3 hc).1, (h3 hc).2⟩

/-- C7: in every state the interactive loop reaches, the line length is at most
`MAX_LINE_LENGTH - 1 = 255`; and when it is 255 a printable character leaves the
whole state unchanged (buffer, length, output): the dispatcher only consumes the
byte. -/
theorem line_length_bounded (s : Shell) (hr : Reachable s) :
    s.line_idx ≤ MAX_LINE_LENGTH - 1 ∧ s.line_idx ≤ 255 ∧
    ∀ c, printable c → s.line_idx = 255 →
      handle_input s c = s ∧
      ∀ rest, s.stdin = c :: rest → main_iter s = some { s with stdin := rest } := by
  have hb := (Inv_of_Reachable s hr).idx_le
  refine ⟨hb, hb, ?_⟩
  intro c hc h255
  have hfull : ∀ r, handle_input { s with stdin := r } c = { s with stdin := r } := by
    intro r
    simp [handle_input, h255, MAX_LINE_LENGTH]
  refine ⟨by simpa using hfull s.stdin, ?_⟩
  intro rest hin
  rw [main_iter_printable s c rest hin hc, hfull]

/-- Witness for C7: the state after `ab` has been typed. -/
theorem line_length_bounded_witness :
    (typed (main_init (List.replicate 256 0) (bytes "ab")) (bytes "ab") []).line_idx ≤ 255 :=
  (line_length_bounded _
    ⟨List.replicate 256 0, bytes "ab", 2, List.length_replicate 256 0,
      main_loop_typed (bytes "ab") _ [] (List.length_replicate 256 0) (by decide)
        (by decide) rfl⟩).2.1

/-- C8: `handle_backspace_key` on an empty line changes nothing and prints
nothing; on a non-empty line it removes exactly the last character (the length
decreases by one, the vacated byte is cleared) and prints backspace, space,
backspace once; history and input are untouched. -/
theorem handle_backspace_key_effect (s : Shell) (hlen : s.line_idx ≤ s.line.length) :
    (s.line_idx = 0 → handle_backspace_key s = s) ∧
    (0 < s.line_idx →
      content (handle_backspace_key s) = (content s).dropLast ∧
      (handle_backspace_key s).line_idx = s.line_idx - 1 ∧
      (handle_backspace_key s).line = s.line.set (s.line_idx - 1) 0 ∧
      (handle_backspace_key s).stdout = s.stdout ++ [8, 32, 8] ∧
      (handle_backspace_key s).history = s.history ∧
      (handle_backspace_key s).history_count = s.history_count ∧
      (handle_backspace_key s).history_idx = s.history_idx ∧
      (handle_backspace_key s).stdin = s.stdin) := by
  constructor
  · intro h0
    simp [handle_backspace_key, h0]
  · intro hpos
    have e : handle_backspace_key s = { s with
        stdout := s.stdout ++ [8, 32, 8]
        line_idx := s.line_idx - 1
        line := s.line.set (s.line_idx - 1) 0 } := by
      simp [handle_backspace_key, hpos, putchar]
    rw [e]
    refine ⟨?_, rfl, rfl, rfl, rfl, rfl, rfl, rfl⟩
    simp only [content]
    rw [take_set_self, List.dropLast_eq_take, List.take_take, List.length_take,
      Nat.min_eq_left hlen, Nat.min_eq_left (Nat.sub_le _ _)]

/-- Witness for C8: backspace on the line `ls`. -/
theorem handle_backspace_key_effect_witness :
    content (handle_backspace_key (typed (main_init [0, 0, 0, 0] []) (bytes "ls") []))
      = (bytes "ls").dropLast :=
  ((handle_backspace_key_effect (typed (main_init [0, 0, 0, 0] []) (bytes "ls") [])
    (by decide)).2 (by decide)).1

/-- C9 (the code at the failing input): with the empty history of the initial
state, every escape sequence makes `navigate_command_history` read the null
pointer `history[0]`: the call has no defined result. -/
theorem navigate_empty_history_undefined (heap rest : List Nat) (a b : Nat) :
    main_loop 1 (main_init heap (27 :: a :: b :: rest)) = none ∧
    history_at (main_init heap rest).history 0 = none := by
  have h : history_at (List.replicate MAX_HISTORY none) 0 = none := by decide
  have h1 : navigate_command_history (main_init heap (a :: b :: rest)) = none := by
    simp only [navigate_command_history, getchar, main_init]
    have hidx : (if (b : Int) = 65 ∧ (0 : Int) > 0 ∧ (0 : Int) > 0 then (0 : Int) - 1
        else if (b : Int) = 66 ∧ (0 : Int) > 0 ∧ (0 : Int) < 0 - 1 then 0 + 1 else 0) = 0 := by
      rw [if_neg (fun h => absurd h.2.1 (by decide)), if_neg (fun h => absurd h.2.1 (by decide))]
    rw [hidx, h]
  refine ⟨?_, h⟩
  simp only [main_loop]
  rw [main_iter_escape _ (a :: b :: rest) rfl]
  simp [main_init] at h1 ⊢
  rw [h1]

/-- C10 (the code at the failing input): a down arrow pressed right after `a` was
submitted arrives with `history_idx = history_count = 1`; the index stays and
the reload reads the null slot `history[1]`: no defined result.  And after `a`
is submitted and recalled and `b` typed behind it (`history_idx = 0`, line `ab`),
one more up arrow leaves `history_idx` at 0 but overwrites the line with `a`
(length 1) and prints the redraw. -/
theorem arrow_at_end_not_noop :
    (main_loop 2 (main_init (List.replicate 256 0) (bytes "a\n" ++ KEY_DOWN))).map
        (fun s => (s.line_idx, s.history_idx, s.history_count, s.stdin))
      = some (0, 1, 1, KEY_DOWN) ∧
    main_loop 3 (main_init (List.replicate 256 0) (bytes "a\n" ++ KEY_DOWN)) = none ∧
    (main_loop 4 (main_init (List.replicate 256 0) (bytes "a\n" ++ KEY_UP ++ bytes "b" ++ KEY_UP))).map
        (fun s => (content s, s.line_idx, s.history_idx, s.history_count, s.stdout))
      = some (bytes "ab", 2, 0, 1, bytes "wish> a\n" ++ REDRAW ++ bytes "ab") ∧
    (main_loop 5 (main_init (List.replicate 256 0) (bytes "a\n" ++ KEY_UP ++ bytes "b" ++ KEY_UP))).map
        (fun s => (content s, s.line_idx, s.history_idx, s.history_count, s.stdout))
      = some (bytes "a", 1, 0, 1,
          bytes "wish> a\n" ++ REDRAW ++ bytes "ab" ++ REDRAW ++ bytes "a") :=
  ⟨rfl, rfl, rfl, rfl⟩

/-- What the reload does at the two ends of a non-empty history when the browse
index designates an entry: an up arrow at `history_idx = 0` or a down arrow at
`history_idx = history_count - 1` leaves `history_idx`, the history and
`history_count` unchanged, reloads the line with the entry at `history_idx` and
prints the redraw followed by that entry. -/
theorem arrow_at_end_reloads_entry (s : Shell) (a b : Nat) (rest : List Nat)
    (hinv : Inv s) (hne : 0 < s.history_count)
    (hkey : (b = 65 ∧ s.history_idx = 0) ∨ (b = 66 ∧ s.history_idx = s.history_count - 1))
    (hin : s.stdin = 27 :: a :: b :: rest) :
    ∃ w s', history_at s.history s.history_idx = some (w ++ [0]) ∧
      main_iter s = some s' ∧
      s' = { s with
        stdin := rest
        line := load_line (w ++ [0])
        line_idx := w.length
        stdout := s.stdout ++ REDRAW ++ w } ∧
      content s' = w ∧ s'.line_idx = w.length ∧ s'.history_idx = s.history_idx ∧
      s'.history = s.history ∧ s'.history_count = s.history_count ∧
      s'.stdout = s.stdout ++ REDRAW ++ w := by
  obtain ⟨_, _, _, ⟨ws, hh, hc, h10, hall⟩, hr⟩ := hinv
  have hlt : s.history_idx.toNat < ws.length := by
    rcases hkey with ⟨_, h⟩ | ⟨_, h⟩ <;> omega
  obtain ⟨w, hw⟩ : ∃ w, ws[s.history_idx.toNat]? = some w :=
    ⟨ws[s.history_idx.toNat], List.getElem?_eq_getElem hlt⟩
  have hwt : entry_text w := hall w (List.getElem?_mem hw)
  have hat := history_at_ring_lt ws s.history_idx.toNat w h10 hw
  rw [Int.toNat_of_nonneg hr.1, ← hh] at hat
  have hstay : (if (b : Int) = 65 ∧ s.history_count > 0 ∧ s.history_idx > 0 then
        s.history_idx - 1
      else if (b : Int) = 66 ∧ s.history_count > 0 ∧ s.history_idx < s.history_count - 1 then
        s.history_idx + 1
      else s.history_idx) = s.history_idx := by
    rcases hkey with ⟨hb, h⟩ | ⟨hb, h⟩
    · rw [if_neg (fun hh => by omega), if_neg (fun hh => by omega)]
    · rw [if_neg (fun hh => by omega), if_neg (fun hh => by omega)]
  have hlen : strlen (load_line (w ++ [0])) = w.length := by
    unfold strlen; rw [cstr_load_entry w hwt]
  have hm : main_iter s = some { s with
      stdin := rest
      line := load_line (w ++ [0])
      line_idx := w.length
      stdout := s.stdout ++ REDRAW ++ w } := by
    rw [main_iter_escape s (a :: b :: rest) hin]
    simp only [navigate_command_history, getchar, hstay, hat, hlen, cstr_load_entry w hwt,
      REDRAW]
  exact ⟨w, _, hat, hm, rfl, content_load_entry _ w hwt rfl rfl, rfl, rfl, rfl, rfl, rfl⟩

/-! ## Claims on `redirection` -/

/-- C3: a command line that splits into exactly one token makes `redirection`
write the fixed error message to standard error and terminate the process; no
file is opened and standard output is not rebound. -/
theorem redirection_single_token_error (sys_open : List Nat → Int) (line tok : List Nat)
    (h : redirection_tokens (line.length + 1) line = some [tok]) :
    redirection sys_open line =
      { trace := [SysCall.write 2 (bytes "An error has occurred\n")]
        ending := Ending.exited 0 } ∧
    ∀ c ∈ (redirection sys_open line).trace,
      (∀ p fl m, c ≠ SysCall.open_ p fl m) ∧ (∀ a b, c ≠ SysCall.dup2 a b) := by
  have e : redirection sys_open line =
      { trace := [SysCall.write 2 (bytes "An error has occurred\n")]
        ending := Ending.exited 0 } := by
    unfold redirection
    rw [h]
    simp only [List.length_singleton, if_true]
    decide
  refine ⟨e, ?_⟩
  rw [e]
  intro c hc
  simp only [List.mem_singleton] at hc
  subst hc
  exact ⟨fun _ _ _ h => (by cases h), fun _ _ h => (by cases h)⟩

/-- Witness for C3: the lines `ls`, `ls >` and `> out` each split into one token
and take the error path. -/
theorem redirection_single_token_error_witness :
    redirection (fun _ => 3) (bytes "ls") = printError [] ∧
    redirection (fun _ => 3) (bytes "ls >") = printError [] ∧
    redirection (fun _ => 3) (bytes "> out") = printError [] :=
  ⟨(redirection_single_token_error (fun _ => 3) (bytes "ls") (bytes "ls") (by decide)).1,
   (redirection_single_token_error (fun _ => 3) (bytes "ls >") (bytes "ls") (by decide)).1,
   (redirection_single_token_error (fun _ => 3) (bytes "> out") (bytes "out") (by decide)).1⟩

/-! ## Escape sequences in general -/

/-- An escape sequence whose target index `new` designates a slot that holds the
string `e`: the index moves there, the line is reloaded from `e` and redrawn. -/
theorem main_iter_navigate_to (s : Shell) (a b : Nat) (rest e : List Nat) (new : Int)
    (hnew : (if (b : Int) = 65 ∧ s.history_count > 0 ∧ s.history_idx > 0 then
        s.history_idx - 1
      else if (b : Int) = 66 ∧ s.history_count > 0 ∧ s.history_idx < s.history_count - 1 then
        s.history_idx + 1
      else s.history_idx) = new)
    (hat : history_at s.history new = some e) (hin : s.stdin = 27 :: a :: b :: rest) :
    main_iter s = some { s with
      stdin := rest
      history_idx := new
      line := load_line e
      line_idx := strlen (load_line e)
      stdout := s.stdout ++ REDRAW ++ cstr (load_line e) } := by
  rw [main_iter_escape s (a :: b :: rest) hin]
  simp only [navigate_command_history, getchar, hnew, hat, REDRAW]

theorem Inv_history_at (s : Shell) (hinv : Inv s) (i : Int) (h0 : 0 ≤ i)
    (hlt : i < s.history_count) :
    ∃ w, entry_text w ∧ history_at s.history i = some (w ++ [0]) := by
  obtain ⟨_, _, _, ⟨ws, hh, hc, h10, hall⟩, _⟩ := hinv
  have hlt' : i.toNat < ws.length := by omega
  obtain ⟨w, hw⟩ : ∃ w, ws[i.toNat]? = some w := ⟨ws[i.toNat], List.getElem?_eq_getElem hlt'⟩
  have hat := history_at_ring_lt ws i.toNat w h10 hw
  rw [Int.toNat_of_nonneg h0, ← hh] at hat
  exact ⟨w, hall w (List.getElem?_mem hw), hat⟩

theorem strlen_load_entry (w : List Nat) (hw : entry_text w) :
    strlen (load_line (w ++ [0])) = w.length := by
  unfold strlen; rw [cstr_load_entry w hw]

theorem main_iter_navigate_none (s : Shell) (a b : Nat) (rest : List Nat) (new : Int)
    (hnew : (if (b : Int) = 65 ∧ s.history_count > 0 ∧ s.history_idx > 0 then
        s.history_idx - 1
      else if (b : Int) = 66 ∧ s.history_count > 0 ∧ s.history_idx < s.history_count - 1 then
        s.history_idx + 1
      else s.history_idx) = new)
    (hat : history_at s.history new = none) (hin : s.stdin = 27 :: a :: b :: rest) :
    main_iter s = none := by
  rw [main_iter_escape s (a :: b :: rest) hin]
  simp only [navigate_command_history, getchar, hnew, hat]

/-- In the ordinary editing state, where the browse index is past the newest
entry (`history_idx = history_count`), every escape sequence other than the up
arrow reads a slot that holds no entry: the dispatcher has no defined result. -/
theorem escape_at_newest_undefined (s : Shell) (a b : Nat) (rest : List Nat)
    (hinv : Inv s) (hidx : s.history_idx = s.history_count) (hb : b ≠ 65)
    (hin : s.stdin = 27 :: a :: b :: rest) : main_iter s = none := by
  obtain ⟨_, _, _, ⟨ws, hh, hc, _, _⟩, _⟩ := hinv
  have hstay : (if (b : Int) = 65 ∧ s.history_count > 0 ∧ s.history_idx > 0 then
        s.history_idx - 1
      else if (b : Int) = 66 ∧ s.history_count > 0 ∧ s.history_idx < s.history_count - 1 then
        s.history_idx + 1
      else s.history_idx) = s.history_idx := by
    rw [if_neg (fun h => hb (by omega)), if_neg (fun h => by omega)]
  have hat : history_at s.history s.history_idx = none := by
    rw [hh]
    exact history_at_ring_ge ws s.history_idx (by omega)
  exact main_iter_navigate_none s a b rest s.history_idx hstay hat hin

/-- C11 (the code at the failing input): with `a` in the history and `ls` typed
on a fresh line (`history_idx = history_count = 1`), the left-arrow sequence
`ESC [ D` makes the reload read the null slot `history[1]`: no defined result.
And after `a` is submitted and recalled and `b` typed behind it the line is
`ab`; the left arrow then overwrites the line with the entry `a` (length 1). -/
theorem other_escape_not_ignored :
    (main_loop 4 (main_init (List.replicate 256 0) (bytes "a\nls" ++ KEY_LEFT))).map
        (fun s => (content s, s.line_idx, s.history_idx, s.history_count, s.stdin))
      = some (bytes "ls", 2, 1, 1, KEY_LEFT) ∧
    main_loop 5 (main_init (List.replicate 256 0) (bytes "a\nls" ++ KEY_LEFT)) = none ∧
    (main_loop 4 (main_init (List.replicate 256 0)
        (bytes "a\n" ++ KEY_UP ++ bytes "b" ++ KEY_LEFT))).map
        (fun s => (content s, s.line_idx, s.history_idx, s.history_count))
      = some (bytes "ab", 2, 0, 1) ∧
    (main_loop 5 (main_init (List.replicate 256 0)
        (bytes "a\n" ++ KEY_UP ++ bytes "b" ++ KEY_LEFT))).map
        (fun s => (content s, s.line_idx, s.history_idx, s.history_count, s.stdin))
      = some (bytes "a", 1, 0, 1, []) :=
  ⟨rfl, rfl, rfl, rfl⟩

/-- What the reload does on other keys while an entry is browsed
(`history_idx < history_count`): an escape sequence whose second byte after ESC
is neither `A` nor `B` consumes its two bytes and leaves the history,
`history_count` and `history_idx` unchanged; the line is reloaded with the entry
at `history_idx` (content and length) and the redraw is printed. -/
theorem other_escape_reloads_entry (s : Shell) (a b : Nat) (rest : List Nat)
    (hinv : Inv s) (hbrowse : s.history_idx < s.history_count)
    (hb : b ≠ 65 ∧ b ≠ 66) (hin : s.stdin = 27 :: a :: b :: rest) :
    ∃ w s', history_at s.history s.history_idx = some (w ++ [0]) ∧
      main_iter s = some s' ∧
      s'.stdin = rest ∧ s'.history = s.history ∧ s'.history_count = s.history_count ∧
      s'.history_idx = s.history_idx ∧
      content s' = w ∧ s'.line_idx = w.length ∧ s'.stdout = s.stdout ++ REDRAW ++ w := by
  obtain ⟨w, hwt, hat⟩ := Inv_history_at s hinv s.history_idx hinv.idx_range.1 hbrowse
  have hstay : (if (b : Int) = 65 ∧ s.history_count > 0 ∧ s.history_idx > 0 then
        s.history_idx - 1
      else if (b : Int) = 66 ∧ s.history_count > 0 ∧ s.history_idx < s.history_count - 1 then
        s.history_idx + 1
      else s.history_idx) = s.history_idx := by
    rw [if_neg (fun hh => hb.1 (by omega)), if_neg (fun hh => hb.2 (by omega))]
  have hm := main_iter_navigate_to s a b rest (w ++ [0]) s.history_idx hstay hat hin
  rw [strlen_load_entry w hwt, cstr_load_entry w hwt] at hm
  exact ⟨w, _, hat, hm, rfl, rfl, rfl, rfl, content_load_entry _ w hwt rfl rfl, rfl, rfl⟩

/-- C12 (counterexample): `a` is submitted, recalled with the up arrow and erased
with backspace; newline on the now empty line leaves `history_idx` at 0 while
`history_count` is 1. -/
theorem newline_on_erased_line_keeps_index :
    (main_loop 4 (main_init (List.replicate 256 0) (bytes "a\n" ++ KEY_UP ++ [127, 10]))).map
        (fun s => (s.line_idx, s.history_idx, s.history_count, s.stdin))
      = some (0, 0, 1, [10]) ∧
    (main_loop 5 (main_init (List.replicate 256 0) (bytes "a\n" ++ KEY_UP ++ [127, 10]))).map
        (fun s => (s.line_idx, s.history_idx, s.history_count, s.stdin))
      = some (0, 0, 1, []) :=
  ⟨rfl, rfl⟩

/-- C12 (amended): in every reachable state a newline is handled and leaves the
line empty (`line_idx = 0`); `history_idx` equals `history_count` afterwards when
the submitted line was not empty, and `history_idx`, `history_count` and the
history are unchanged when it was empty. -/
theorem newline_resets_line (s : Shell) (rest : List Nat)
    (hr : Reachable s) (hin : s.stdin = 10 :: rest) :
    ∃ s', main_iter s = some s' ∧ s'.line_idx = 0 ∧ content s' = [] ∧ s'.stdin = rest ∧
      (0 < s.line_idx → s'.history_idx = s'.history_count) ∧
      (s.line_idx = 0 → s'.history_idx = s.history_idx ∧
        s'.history_count = s.history_count ∧ s'.history = s.history) := by
  obtain ⟨a, b, cz, ⟨ws, hh, hc, h10, _⟩, _⟩ := Inv_of_Reachable s hr
  rw [main_iter_newline s rest hin]
  rcases Nat.eq_zero_or_pos s.line_idx with h0 | hpos
  · rw [add_command_to_history_empty _ (by simpa using h0)]
    refine ⟨_, rfl, h0, ?_, rfl, fun h => ?_, fun _ => ⟨rfl, rfl, rfl⟩⟩
    · simp [content, h0]
    · omega
  · have hle : s.line_idx ≤ s.line.length := by
      rw [a]; exact Nat.le_trans b (Nat.sub_le _ _)
    rw [add_command_to_history_pos { s with stdin := rest } ws hle hpos cz hh hc h10]
    refine ⟨_, rfl, rfl, ?_, rfl, fun _ => rfl, fun h => ?_⟩
    · simp [content]
    · omega

/-- Witness for C12 (amended): newline after `ls` was typed at the prompt. -/
theorem newline_resets_line_witness :
    ∃ s', main_iter (typed (main_init (List.replicate 256 0) []) (bytes "ls") [10]) = some s' ∧
      s'.line_idx = 0 ∧ s'.history_idx = s'.history_count := by
  obtain ⟨s', h1, h2, _, _, h3, _⟩ :=
    newline_resets_line (typed (main_init (List.replicate 256 0) []) (bytes "ls") [10]) []
      ⟨List.replicate 256 0, bytes "ls" ++ [10], 2, List.length_replicate 256 0,
        main_loop_typed (bytes "ls") _ _ (List.length_replicate 256 0) (by decide)
          (by decide) rfl⟩
      rfl
  exact ⟨s', h1, h2, h3 (by decide)⟩

/-- C13: in every state the interactive loop reaches from the initial state,
`0 ≤ history_count ≤ 10`, `0 ≤ history_idx ≤ history_count`, the array has its 10
slots, and each of the slots `0 .. history_count - 1` holds a terminated string of
at least 1 and at most 255 characters. -/
theorem history_ring_invariant (s : Shell) (hr : Reachable s) :
    0 ≤ s.history_count ∧ s.history_count ≤ 10 ∧
    0 ≤ s.history_idx ∧ s.history_idx ≤ s.history_count ∧
    s.history.length = 10 ∧
    ∀ i : Nat, (i : Int) < s.history_count →
      ∃ w, s.history[i]? = some (some (w ++ [0])) ∧ history_at s.history i = some (w ++ [0]) ∧
        w ≠ [] ∧ w.length ≤ 255 ∧ ∀ c ∈ w, c ≠ 0 := by
  have hinv := Inv_of_Reachable s hr
  obtain ⟨_, _, _, ⟨ws, hh, hc, h10, hall⟩, hidx⟩ := hinv
  have h10' : ws.length ≤ 10 := h10
  refine ⟨by omega, by omega, hidx.1, hidx.2, ?_, ?_⟩
  · rw [hh]; exact ring_length ws h10
  · intro i hi
    have hlt : i < ws.length := by omega
    obtain ⟨w, hw⟩ : ∃ w, ws[i]? = some w := ⟨ws[i], List.getElem?_eq_getElem hlt⟩
    have hwt := hall w (List.getElem?_mem hw)
    refine ⟨w, ?_, ?_, hwt.1, hwt.2.1, hwt.2.2⟩
    · rw [hh, ring_getElem?_lt ws i hlt, hw]; rfl
    · rw [hh]; exact history_at_ring_lt ws i w h10 hw

/-- Witness for C13: the state after `a` was submitted and recalled. -/
theorem history_ring_invariant_witness :
    ∃ w, (ring [[97]])[0]? = some (some (w ++ [0])) ∧ w ≠ [] := by
  obtain ⟨_, _, _, _, _, h⟩ :=
    history_ring_invariant
      { line := load_line [97, 0], line_idx := 1, history := ring [[97]],
        history_count := 1, history_idx := 0, stdin := [],
        stdout := bytes "wish> a\n" ++ REDRAW ++ [97] }
      ⟨List.replicate 256 0, bytes "a\n" ++ KEY_UP, 3, List.length_replicate 256 0, rfl⟩
  obtain ⟨w, h1, _, h2, _⟩ := h 0 (by decide)
  exact ⟨w, h1, h2⟩


theorem cstr_take (e : List Nat) (n : Nat) : cstr (e.take n) = (cstr e).take n := by
  unfold cstr
  exact (List.take_takeWhile _ n).symm

/-- C16: with a non-empty history, an up arrow at `history_idx > 0` moves
`history_idx` down by one and a down arrow at `history_idx < history_count - 1`
moves it up by one.  When the slot at the new index holds the string `e`, the
line afterwards is `e` clipped to 255 characters, `line_idx` is its length (the
length of `e` when `e` has at most 255 characters) and the output is the
clear-line sequence, carriage return and the new line content.  In a consistent
state the slot at the new index does hold an entry. -/
theorem arrow_moves_browse_index (s : Shell) (a b : Nat) (rest : List Nat) (new : Int)
    (hcount : 0 < s.history_count)
    (hkey : (b = 65 ∧ 0 < s.history_idx ∧ new = s.history_idx - 1) ∨
      (b = 66 ∧ s.history_idx < s.history_count - 1 ∧ new = s.history_idx + 1))
    (hin : s.stdin = 27 :: a :: b :: rest) :
    (Inv s → ∃ w, entry_text w ∧ history_at s.history new = some (w ++ [0])) ∧
    ∀ e, history_at s.history new = some e →
      ∃ s', main_iter s = some s' ∧ s'.history_idx = new ∧
        content s' = (cstr e).take 255 ∧ s'.line_idx = ((cstr e).take 255).length ∧
        ((cstr e).length ≤ 255 → content s' = cstr e ∧ s'.line_idx = strlen e) ∧
        s'.stdout = s.stdout ++ [27, 91, 50, 75, 13] ++ content s' ∧
        s'.history = s.history ∧ s'.history_count = s.history_count ∧ s'.stdin = rest := by
  have hnew : (if (b : Int) = 65 ∧ s.history_count > 0 ∧ s.history_idx > 0 then
        s.history_idx - 1
      else if (b : Int) = 66 ∧ s.history_count > 0 ∧ s.history_idx < s.history_count - 1 then
        s.history_idx + 1
      else s.history_idx) = new := by
    rcases hkey with ⟨hb, h, hn⟩ | ⟨hb, h, hn⟩
    · rw [if_pos ⟨by omega, hcount, h⟩, hn]
    · rw [if_neg (fun hh => by omega), if_pos ⟨by omega, hcount, h⟩, hn]
  constructor
  · intro hinv
    have hr := hinv.idx_range
    exact Inv_history_at s hinv new (by rcases hkey with ⟨_, h, hn⟩ | ⟨_, h, hn⟩ <;> omega)
      (by rcases hkey with ⟨_, h, hn⟩ | ⟨_, h, hn⟩ <;> omega)
  · intro e hat
    have hm := main_iter_navigate_to s a b rest e new hnew hat hin
    have hc : content { s with
        stdin := rest
        history_idx := new
        line := load_line e
        line_idx := strlen (load_line e)
        stdout := s.stdout ++ REDRAW ++ cstr (load_line e) } = (cstr e).take 255 := by
      rw [content_load_line _ e rfl rfl, cstr_load_line, cstr_take]
      rfl
    have hl : strlen (load_line e) = ((cstr e).take 255).length := by
      unfold strlen
      rw [cstr_load_line, cstr_take]
      rfl
    refine ⟨_, hm, rfl, hc, hl, ?_, ?_, rfl, rfl, rfl⟩
    · intro hle
      have ht : (cstr e).take 255 = cstr e := List.take_of_length_le hle
      rw [hc, ht]
      refine ⟨rfl, ?_⟩
      show strlen (load_line e) = strlen e
      rw [hl, ht]
      rfl
    · rw [hc]
      have : cstr (load_line e) = (cstr e).take 255 := by
        rw [cstr_load_line, cstr_take]; rfl
      simp only [this, REDRAW]

/-- Witness for C16: the down arrow at the older of the two entries `a`, `b`. -/
theorem arrow_moves_browse_index_witness :
    ∃ s', main_iter { line := load_line [97, 0], line_idx := 1, history := ring [[97], [98]],
                      history_count := 2, history_idx := 0, stdin := KEY_DOWN, stdout := [] }
        = some s' ∧ s'.history_idx = 1 ∧ content s' = [98] := by
  obtain ⟨s', h1, h2, h3, _⟩ :=
    (arrow_moves_browse_index
      { line := load_line [97, 0], line_idx := 1, history := ring [[97], [98]],
        history_count := 2, history_idx := 0, stdin := KEY_DOWN, stdout := [] }
      91 66 [] 1 (by decide) (Or.inr ⟨rfl, by decide, by decide⟩) rfl).2 [98, 0] (by decide)
  exact ⟨s', h1, h2, by rw [h3]; decide⟩

/-- C17: `navigate_command_history` does not write to the history: whenever it
returns, `history` and `history_count` are what they were (the line, its length,
`history_idx` and the two streams are all that can differ); and when it does not
return, this is because the slot it reads at `history_idx`, `history_idx - 1` or
`history_idx + 1` holds no entry. -/
theorem navigate_keeps_history (s : Shell) :
    (∀ s', navigate_command_history s = some s' →
      s'.history = s.history ∧ s'.history_count = s.history_count ∧
      s' = { s with
        line := s'.line, line_idx := s'.line_idx, history_idx := s'.history_idx
        stdin := s'.stdin, stdout := s'.stdout }) ∧
    (navigate_command_history s = none →
      ∃ i, (i = s.history_idx ∨ i = s.history_idx - 1 ∨ i = s.history_idx + 1) ∧
        history_at s.history i = none) := by
  constructor
  · intro s' h
    obtain ⟨e, _, heq, _⟩ := navigate_some s s' h
    refine ⟨by rw [heq], by rw [heq], ?_⟩
    rw [heq]
  · intro h
    obtain ⟨line, li, hist, cnt, idx, sin, sout⟩ := s
    have key : ∀ ch : Int, history_at hist
        (if ch = 65 ∧ cnt > 0 ∧ idx > 0 then idx - 1
          else if ch = 66 ∧ cnt > 0 ∧ idx < cnt - 1 then idx + 1 else idx) = none →
        ∃ i, (i = idx ∨ i = idx - 1 ∨ i = idx + 1) ∧ history_at hist i = none := by
      intro ch hn
      rcases nav_index_cases ch cnt idx with h1 | ⟨_, h1⟩ | ⟨_, h1⟩
      · exact ⟨idx, Or.inl rfl, by rw [← h1]; exact hn⟩
      · exact ⟨idx - 1, Or.inr (Or.inl rfl), by rw [← h1]; exact hn⟩
      · exact ⟨idx + 1, Or.inr (Or.inr rfl), by rw [← h1]; exact hn⟩
    rcases sin with _ | ⟨a, _ | ⟨b, rest⟩⟩ <;>
      simp only [navigate_command_history, getchar] at h <;>
      split at h
    all_goals first
      | (rename_i hn; exact key _ hn)
      | cases h


/-- Witness for C17: the up arrow pressed after `a` was submitted. -/
theorem navigate_keeps_history_witness :
    ∃ s', navigate_command_history
        { line := load_line [97, 0], line_idx := 0, history := ring [[97]],
          history_count := 1, history_idx := 1, stdin := [91, 65], stdout := [] } = some s' ∧
      s'.history = ring [[97]] ∧ s'.history_count = 1 ∧ s'.history_idx = 0 := by
  have h : navigate_command_history
      { line := load_line [97, 0], line_idx := 0, history := ring [[97]],
        history_count := 1, history_idx := 1, stdin := [91, 65], stdout := [] }
      = some
      { line := load_line [97, 0], line_idx := 1, history := ring [[97]],
        history_count := 1, history_idx := 0, stdin := [], stdout := REDRAW ++ [97] } := by
    rfl
  exact ⟨_, h, ((navigate_keeps_history _).1 _ h).1, ((navigate_keeps_history _).1 _ h).2.1, rfl⟩


/-! ## The tokenizer and the split of the specification -/

theorem split_runs_nil : split_runs [] = [] := by
  simp [split_runs, List.splitOnP_nil]

theorem split_runs_delim_cons (d : Nat) (s : List Nat) (hd : isDelim d = true) :
    split_runs (d :: s) = split_runs s := by
  simp [split_runs, List.splitOnP_cons, hd]

theorem split_runs_dropWhile (s : List Nat) :
    split_runs (s.dropWhile isDelim) = split_runs s := by
  induction s with
  | nil => rfl
  | cons c cs ih =>
    by_cases hc : isDelim c = true
    · rw [List.dropWhile_cons, if_pos hc, ih, split_runs_delim_cons c cs hc]
    · rw [List.dropWhile_cons, if_neg hc]

theorem split_runs_word (t : List Nat) (ht : word t) : split_runs t = [t] := by
  obtain ⟨hne, hfree⟩ := ht
  unfold split_runs
  rw [List.splitOnP_eq_single isDelim t (fun x hx => by simp [hfree x hx])]
  cases t with
  | nil => exact absurd rfl hne
  | cons c cs => simp

theorem split_runs_word_delim (t : List Nat) (d : Nat) (rest : List Nat) (ht : word t)
    (hd : isDelim d = true) : split_runs (t ++ d :: rest) = t :: split_runs rest := by
  obtain ⟨hne, hfree⟩ := ht
  unfold split_runs
  rw [List.splitOnP_first isDelim t (fun x hx => by simp [hfree x hx]) d hd rest]
  cases t with
  | nil => exact absurd rfl hne
  | cons c cs => simp

/-- What one `strtok` call yields, in terms of the split of the specification. -/
theorem strtok_split_runs (s : List Nat) :
    (strtok s = none → split_runs s = []) ∧
    (∀ t rest, strtok s = some (t, rest) → split_runs s = t :: split_runs rest) := by
  unfold strtok
  cases hL : s.dropWhile isDelim with
  | nil =>
    refine ⟨fun _ => ?_, fun t rest h => (by cases h)⟩
    rw [← split_runs_dropWhile, hL, split_runs_nil]
  | cons c cs =>
    refine ⟨fun h => (by cases h), fun t rest h => ?_⟩
    simp only [Option.some.injEq, Prod.mk.injEq] at h
    obtain ⟨ht, hr⟩ := h
    have hc : isDelim c = false := by
      have := List.head_dropWhile_not isDelim s (by rw [hL]; simp)
      simpa [hL] using this
    have hword : word t := by
      constructor
      · rw [← ht, List.takeWhile_cons]
        simp [hc]
      · intro x hx
        rw [← ht] at hx
        have := List.mem_takeWhile_imp hx
        simpa using this
    have hsplit : c :: cs = t ++ (c :: cs).dropWhile (fun x => !isDelim x) := by
      rw [← ht]; exact (List.takeWhile_append_dropWhile _ _).symm
    rw [← split_runs_dropWhile, hL]
    cases hR : (c :: cs).dropWhile (fun x => !isDelim x) with
    | nil =>
      rw [hR] at hsplit hr
      simp only [List.append_nil] at hsplit
      simp only [List.drop_nil] at hr
      rw [hsplit, ← hr, split_runs_nil]
      exact split_runs_word t hword
    | cons d R =>
      rw [hR] at hsplit hr
      have hd : isDelim d = true := by
        have := List.head_dropWhile_not (fun x => !isDelim x) (c :: cs) (by rw [hR]; simp)
        simpa [hR] using this
      simp only [List.drop_succ_cons, List.drop_zero] at hr
      rw [hsplit, ← hr]
      exact split_runs_word_delim t d R hword hd

/-- The tokens that the loop of `redirection` stores are the split of the line on
runs of delimiters. -/
theorem redirection_tokens_eq_split_runs (fuel : Nat) : ∀ s : List Nat, s.length < fuel →
    redirection_tokens fuel s = some (split_runs s) := by
  induction fuel with
  | zero => intro s h; omega
  | succ n ih =>
    intro s h
    unfold redirection_tokens
    cases hs : strtok s with
    | none => simp only [(strtok_split_runs s).1 hs]
    | some p =>
      obtain ⟨t, rest⟩ := p
      have hlt := strtok_rest_length s t rest hs
      simp only [ih rest (by omega), (strtok_split_runs s).2 t rest hs, Option.map_some']

theorem split_runs_many_words (n : Nat) : split_runs (many_words n) = List.replicate n [97] := by
  induction n with
  | zero => exact split_runs_nil
  | succ n ih =>
    have h := split_runs_word_delim [97] 32 (many_words n) ⟨by decide, by decide⟩ (by decide)
    simp only [List.singleton_append] at h
    rw [many_words, h, ih, List.replicate_succ]

theorem redirection_tokens_many_words (n : Nat) :
    redirection_tokens ((many_words n).length + 1) (many_words n)
      = some (List.replicate n [97]) := by
  rw [redirection_tokens_eq_split_runs _ _ (Nat.lt_succ_self _), split_runs_many_words]

/-! ## Further claims on `redirection` -/

/-- C19 (the code at the failing input): on the empty line, and on a line made
of delimiters only, the split yields no token; the count 0 passes the test
`a == 1` and the target is read from the slot `redirections[1]`, which the loop
never wrote. -/
theorem redirection_without_token_undefined (sys_open : List Nat → Int) :
    redirection_tokens 1 [] = some [] ∧
    redirection sys_open [] = { trace := [], ending := Ending.undefined } ∧
    redirection_tokens 5 (bytes " > \n") = some [] ∧
    redirection sys_open (bytes " > \n") = { trace := [], ending := Ending.undefined } :=
  ⟨rfl, rfl, rfl, rfl⟩


/-! ## trimString -/

theorem trim_start_le (s : List Nat) : trim_start s ≤ s.length := by
  induction s with
  | nil => exact Nat.le_refl 0
  | cons c cs ih =>
    unfold trim_start
    split
    · simp only [List.length_cons]; omega
    · exact Nat.zero_le _

theorem trim_start_spaces (s : List Nat) : ∀ c ∈ s.take (trim_start s), isspace c = true := by
  induction s with
  | nil => intro c hc; simp [trim_start] at hc
  | cons a cs ih =>
    intro c hc
    unfold trim_start at hc
    split at hc
    · rename_i ha
      simp only [List.take_succ_cons, List.mem_cons] at hc
      rcases hc with hc | hc
      · rw [hc]; exact ha
      · exact ih c hc
    · simp at hc

theorem trim_start_stop (s : List Nat) : isspace (s.getD (trim_start s) 0) = false := by
  induction s with
  | nil => rfl
  | cons a cs ih =>
    unfold trim_start
    split
    · rw [List.getD_cons_succ]; exact ih
    · rename_i ha
      rw [List.getD_cons_zero]
      simpa using ha

theorem trim_start_all (s : List Nat) (h : ∀ c ∈ s, isspace c = true) :
    trim_start s = s.length := by
  induction s with
  | nil => rfl
  | cons a cs ih =>
    unfold trim_start
    rw [if_pos (h a (by simp)), ih (fun c hc => h c (by simp [hc]))]
    rfl

theorem trim_end_le (str : List Nat) (st k : Nat) : trim_end str st k ≤ k := by
  induction k with
  | zero => exact Nat.le_refl 0
  | succ k ih =>
    unfold trim_end
    split
    · omega
    · exact Nat.le_refl _

theorem trim_end_ge (str : List Nat) (st k : Nat) (h : st ≤ k) : st ≤ trim_end str st k := by
  induction k with
  | zero => simpa [trim_end] using h
  | succ k ih =>
    unfold trim_end
    split
    · rename_i hc; exact ih hc.1
    · exact h

theorem trim_end_spaces (str : List Nat) (st k : Nat) :
    ∀ i, trim_end str st k ≤ i → i < k → isspace (str.getD i 0) = true := by
  induction k with
  | zero => intro i _ hi; omega
  | succ k ih =>
    intro i hle hi
    unfold trim_end at hle
    split at hle
    · rename_i hc
      rcases Nat.lt_or_ge i k with h | h
      · exact ih i hle h
      · have : i = k := by omega
        rw [this]; exact hc.2
    · omega

theorem trim_end_stop (str : List Nat) (st k : Nat) (h : st < trim_end str st k) :
    isspace (str.getD (trim_end str st k - 1) 0) = false := by
  induction k with
  | zero => simp [trim_end] at h
  | succ k ih =>
    unfold trim_end at h ⊢
    split
    · rename_i hc
      rw [if_pos hc] at h
      exact ih h
    · rename_i hc
      rw [if_neg hc] at h
      have hk : st ≤ k := by omega
      have : ¬ (isspace (str.getD k 0) = true) := fun hs => hc ⟨hk, hs⟩
      simpa using this

/-- The result of `trimString` is the part of the string between the two indices
that its loops compute, and these satisfy `start ≤ end + 1 ≤ strlen(str)`. -/
theorem trimString_bounds (s : List Nat) :
    trim_start s ≤ trim_end s (trim_start s) s.length ∧
    trim_end s (trim_start s) s.length ≤ s.length ∧
    (trimString s).length = trim_end s (trim_start s) s.length - trim_start s := by
  have h1 := trim_end_ge s (trim_start s) s.length (trim_start_le s)
  have h2 := trim_end_le s (trim_start s) s.length
  refine ⟨h1, h2, ?_⟩
  simp only [trimString, List.length_drop, List.length_take]
  omega

theorem trimString_getElem? (s : List Nat) (j : Nat) (hj : j < (trimString s).length) :
    (trimString s)[j]? = s[trim_start s + j]? := by
  obtain ⟨_, _, h3⟩ := trimString_bounds s
  simp only [trimString] at hj ⊢
  rw [List.getElem?_drop, List.getElem?_take_of_lt]
  simp only [trimString] at h3
  omega

theorem trimString_decompose (s : List Nat) :
    s = s.take (trim_start s) ++ trimString s ++ s.drop (trim_end s (trim_start s) s.length) := by
  obtain ⟨h1, _, _⟩ := trimString_bounds s
  have e1 : s.take (trim_start s) ++ trimString s
      = s.take (trim_end s (trim_start s) s.length) := by
    have : s.take (trim_start s)
        = (s.take (trim_end s (trim_start s) s.length)).take (trim_start s) := by
      rw [List.take_take, Nat.min_eq_left h1]
    rw [this]
    exact List.take_append_drop _ _
  rw [e1, List.take_append_drop]

theorem trimString_head (s : List Nat) (c : Nat) (h : (trimString s).head? = some c) :
    isspace c = false := by
  have hpos : 0 < (trimString s).length := by
    cases ht : trimString s with
    | nil => rw [ht] at h; cases h
    | cons a as => simp
  rw [List.head?_eq_getElem?, trimString_getElem? s 0 hpos, Nat.add_zero] at h
  have := trim_start_stop s
  rw [List.getD_eq_getElem?_getD, h] at this
  exact this

theorem trimString_last (s : List Nat) (c : Nat) (h : (trimString s).getLast? = some c) :
    isspace c = false := by
  have hpos : 0 < (trimString s).length := by
    cases ht : trimString s with
    | nil => rw [ht] at h; cases h
    | cons a as => simp
  obtain ⟨h1, h2, h3⟩ := trimString_bounds s
  rw [List.getLast?_eq_getElem?, trimString_getElem? s _ (by omega)] at h
  have hst : trim_start s < trim_end s (trim_start s) s.length := by omega
  have := trim_end_stop s (trim_start s) s.length hst
  have e : trim_start s + ((trimString s).length - 1)
      = trim_end s (trim_start s) s.length - 1 := by omega
  rw [e] at h
  rw [List.getD_eq_getElem?_getD, h] at this
  exact this

theorem trimString_tight (t : List Nat)
    (hh : ∀ c, t.head? = some c → isspace c = false)
    (hl : ∀ c, t.getLast? = some c → isspace c = false) : trimString t = t := by
  cases t with
  | nil => rfl
  | cons a as =>
    have ha : isspace a = false := hh a rfl
    have hs : trim_start (a :: as) = 0 := by
      unfold trim_start
      rw [if_neg (by simp [ha])]
    have he : trim_end (a :: as) 0 (a :: as).length = (a :: as).length := by
      simp only [List.length_cons]
      unfold trim_end
      rw [if_neg]
      intro hc
      have hlast := hl ((a :: as).getD as.length 0) (by
        rw [List.getLast?_eq_getElem?, List.getD_eq_getElem?_getD]
        simp only [List.length_cons, Nat.add_sub_cancel]
        have hlt : as.length < (a :: as).length := by simp
        rw [List.getElem?_eq_getElem hlt]
        rfl)
      rw [hlast] at hc
      exact absurd hc.2 (by decide)
    simp only [trimString, hs, he, List.drop_zero, List.take_length]

/-- C20: `trimString s` is `s` without a leading and a trailing run of whitespace
characters, the interior unchanged: `s = pre ++ trimString s ++ post` with `pre`
and `post` made of whitespace only (space, `\t`, `\n`, `\v`, `\f`, `\r`).  The
result neither begins nor ends with whitespace, it is empty when `s` is empty or
all whitespace, and `trimString` leaves its own result unchanged. -/
theorem trimString_removes_outer_whitespace (s : List Nat) :
    (∃ pre post, s = pre ++ trimString s ++ post ∧
      (∀ c ∈ pre, isspace c = true) ∧ (∀ c ∈ post, isspace c = true)) ∧
    (∀ c, (trimString s).head? = some c → isspace c = false) ∧
    (∀ c, (trimString s).getLast? = some c → isspace c = false) ∧
    ((∀ c ∈ s, isspace c = true) → trimString s = []) ∧
    trimString [] = [] ∧
    trimString (trimString s) = trimString s ∧
    (∀ c, isspace c = true ↔ c = 32 ∨ c = 9 ∨ c = 10 ∨ c = 11 ∨ c = 12 ∨ c = 13) := by
  refine ⟨⟨s.take (trim_start s), s.drop (trim_end s (trim_start s) s.length),
      trimString_decompose s, trim_start_spaces s, ?_⟩,
    trimString_head s, trimString_last s, ?_, rfl,
    trimString_tight _ (trimString_head s) (trimString_last s), ?_⟩
  · intro c hc
    obtain ⟨j, hj⟩ := List.mem_iff_getElem?.mp hc
    rw [List.getElem?_drop] at hj
    have hlt : trim_end s (trim_start s) s.length + j < s.length := by
      rcases Nat.lt_or_ge (trim_end s (trim_start s) s.length + j) s.length with h | h
      · exact h
      · rw [List.getElem?_eq_none h] at hj; cases hj
    have := trim_end_spaces s (trim_start s) s.length _ (Nat.le_add_right _ j) hlt
    rw [List.getD_eq_getElem?_getD, hj] at this
    exact this
  · intro hall
    obtain ⟨h1, h2, h3⟩ := trimString_bounds s
    have hst := trim_start_all s hall
    apply List.eq_nil_of_length_eq_zero
    omega
  · intro c
    simp [isspace, or_assoc]

/-- Witness for C20: a command with blanks, a tab and a line end around it. -/
theorem trimString_removes_outer_whitespace_witness :
    trimString (bytes "  ls -l \t\r\n") = bytes "ls -l" ∧
    trimString (bytes " \t \n") = [] ∧
    trimString (trimString (bytes "  ls -l \t\r\n")) = trimString (bytes "  ls -l \t\r\n") :=
  ⟨by decide, (trimString_removes_outer_whitespace (bytes " \t \n")).2.2.2.1 (by decide),
    (trimString_removes_outer_whitespace (bytes "  ls -l \t\r\n")).2.2.2.2.2.1⟩


theorem getline_rest_length (s l rest : List Nat) (h : getline s = some (l, rest)) :
    rest.length < s.length := by
  unfold getline at h
  cases s with
  | nil => cases h
  | cons c cs =>
    simp only [Option.some.injEq, Prod.mk.injEq] at h
    obtain ⟨_, hr⟩ := h
    have hsuf : ((c :: cs).dropWhile (fun x => x != 10)).length ≤ (c :: cs).length :=
      (List.dropWhile_suffix _).length_le
    rw [← hr, List.length_drop]
    simp only [List.length_cons] at hsuf ⊢
    omega

/-- The batch loop ends: it performs `getline` calls only, the last of which
reports end of file. -/
theorem batch_loop_total (fuel : Nat) : ∀ s : List Nat, s.length < fuel →
    ∃ reads, batch_loop fuel s = some reads ∧
      (∀ c ∈ reads, ∃ l, c = MainCall.getline l) ∧
      reads.getLast? = some (MainCall.getline none) := by
  induction fuel with
  | zero => intro s h; omega
  | succ n ih =>
    intro s h
    unfold batch_loop
    cases hs : getline s with
    | none =>
      refine ⟨[MainCall.getline none], rfl, ?_, rfl⟩
      intro c hc
      exact ⟨none, by simpa using hc⟩
    | some p =>
      obtain ⟨l, rest⟩ := p
      have hlt := getline_rest_length s l rest hs
      obtain ⟨reads, hr, hall, hlast⟩ := ih rest (by omega)
      refine ⟨MainCall.getline (some l) :: reads, by simp [hr], ?_, ?_⟩
      · intro c hc
        rcases List.mem_cons.mp hc with hc | hc
        · exact ⟨some l, hc⟩
        · exact hall c hc
      · cases reads with
        | nil => cases hlast
        | cons r rs => simpa using hlast

/-- C14 (the code on every script): in batch mode `main` opens the file, reads it
with `getline` until end of file, frees the line and returns 0 without ever
calling `set_terminal_raw_mode`; but between the loop and the return it calls
`restore_terminal_mode(&old_term)`, with an `old_term` that nothing has filled. -/
theorem batch_mode_calls_restore (text : List Nat) :
    ∃ reads, main 2 (some text) =
        { calls := MainCall.fopen true :: reads ++
            [MainCall.free_line, MainCall.restore_terminal_mode false]
          ending := MainEnding.returned 0 } ∧
      (∀ c ∈ reads, ∃ l, c = MainCall.getline l) ∧
      reads.getLast? = some (MainCall.getline none) ∧
      MainCall.restore_terminal_mode false ∈ (main 2 (some text)).calls ∧
      MainCall.set_terminal_raw_mode ∉ (main 2 (some text)).calls := by
  obtain ⟨reads, hr, hall, hlast⟩ := batch_loop_total (text.length + 1) text (Nat.lt_succ_self _)
  have hm : main 2 (some text) =
      { calls := MainCall.fopen true :: reads ++
          [MainCall.free_line, MainCall.restore_terminal_mode false]
        ending := MainEnding.returned 0 } := by
    simp [main, hr]
  refine ⟨reads, hm, hall, hlast, ?_, ?_⟩
  · rw [hm]; simp
  · rw [hm]
    intro hmem
    rcases List.mem_cons.mp hmem with h | h
    · cases h
    · rcases List.mem_append.mp h with h | h
      · obtain ⟨l, hl⟩ := hall _ h
        cases hl
      · rcases List.mem_cons.mp h with h | h
        · cases h
        · rcases List.mem_cons.mp h with h | h
          · cases h
          · cases h

/-- The batch run of C14 on a script of three lines. -/
theorem batch_mode_three_lines :
    main 2 (some (bytes "ls\npwd\nexit\n")) =
      { calls := [MainCall.fopen true, MainCall.getline (some (bytes "ls\n")),
          MainCall.getline (some (bytes "pwd\n")), MainCall.getline (some (bytes "exit\n")),
          MainCall.getline none, MainCall.free_line, MainCall.restore_terminal_mode false]
        ending := MainEnding.returned 0 } := by
  decide


end Wish
